import Mathlib

/-!
Verification of the iceload store engine (src/schema.rs, src/server.rs,
src/main.rs) against its specification.

Modelling conventions:
* Rust `String` values (path components, scalar values, schema field names)
  are modelled by their UTF-8 byte sequences, as `List Nat`.  Rust string
  equality and ordering coincide with byte-sequence equality and
  lexicographic byte order, so nothing is lost.
* `usize` arithmetic (`len.to_le_bytes()` in the codec) is modelled exactly:
  eight little-endian base-256 digits.  A length below `2 ^ 64` round-trips.
* `serde_json::Value` is modelled by `JValue`; `serde_json::Map` is a
  B-tree map ordered by byte-lexicographic key order, modelled as an
  association list with strictly sorted keys.
* The sled store is an ordered byte-key/byte-value map, modelled as an
  association list where the most recent insertion shadows older entries.
* Rust panics (`unwrap`, `expect`, out-of-range slicing) are modelled by the
  distinguished error `ServerError.Panic` (respectively by `none` for the
  raw decoder); a panic unwinds out of the sled transaction, so like an
  abort it never commits.
-/

namespace Iceload

/-- A path component: the UTF-8 bytes of a Rust `String` (`RefComponent`). -/
abbrev Comp : Type := List Nat

/-- A path (`Ref` in src/message.rs): a sequence of components. -/
abbrev Path : Type := List Comp

/-! ### Little-endian length fields (`usize::to_le_bytes` / `from_le_bytes`) -/

/-- Little-endian base-256 digits of `n`, exactly `w` bytes
(`usize::to_le_bytes` with `w = 8`). -/
def toLeBytes : Nat → Nat → List Nat
  | 0, _ => []
  | w + 1, n => n % 256 :: toLeBytes w (n / 256)

/-- Read a little-endian base-256 digit list back into a number
(`usize::from_le_bytes`). -/
def fromLeBytes : List Nat → Nat
  | [] => 0
  | b :: r => b + 256 * fromLeBytes r

@[simp] theorem length_toLeBytes (w n : Nat) : (toLeBytes w n).length = w := by
  induction w generalizing n with
  | zero => rfl
  | succ w ih => simp [toLeBytes, ih]

theorem fromLeBytes_toLeBytes (w n : Nat) :
    fromLeBytes (toLeBytes w n) = n % 256 ^ w := by
  induction w generalizing n with
  | zero => simp [toLeBytes, fromLeBytes, Nat.mod_one]
  | succ w ih =>
    simp only [toLeBytes, fromLeBytes, ih]
    rw [pow_succ', Nat.mod_mul]

theorem toLeBytes_injOn {w a b : Nat} (ha : a < 256 ^ w) (hb : b < 256 ^ w)
    (h : toLeBytes w a = toLeBytes w b) : a = b := by
  have := congrArg fromLeBytes h
  rwa [fromLeBytes_toLeBytes, fromLeBytes_toLeBytes, Nat.mod_eq_of_lt ha,
    Nat.mod_eq_of_lt hb] at this

theorem toLeBytes_fromLeBytes {l : List Nat} (h : ∀ x ∈ l, x < 256) :
    toLeBytes l.length (fromLeBytes l) = l := by
  induction l with
  | nil => rfl
  | cons b r ih =>
    have hb : b < 256 := h b (by simp)
    have h1 : (b + 256 * fromLeBytes r) % 256 = b := by omega
    have h2 : (b + 256 * fromLeBytes r) / 256 = fromLeBytes r := by omega
    simp only [List.length_cons, toLeBytes, fromLeBytes, h1, h2]
    rw [ih (fun x hx => h x (by simp [hx]))]

theorem pow_256_8 : (256 : Nat) ^ 8 = 2 ^ 64 := by norm_num

theorem mem_toLeBytes_lt {w n : Nat} : ∀ x ∈ toLeBytes w n, x < 256 := by
  induction w generalizing n with
  | zero => simp [toLeBytes]
  | succ w ih =>
    intro x hx
    simp only [toLeBytes, List.mem_cons] at hx
    rcases hx with h | h
    · omega
    · exact ih x h

/-! ### Path codec (`Schema::encode_ref` / `Schema::decode_ref`) -/

/-- Encoding of a single component: `{u64 length little-endian}{raw bytes}`. -/
def encComp (c : Comp) : List Nat := toLeBytes 8 c.length ++ c

/-- `Schema::encode_ref`: concatenation of the encoded components. -/
def encode_ref : Path → List Nat
  | [] => []
  | c :: p => encComp c ++ encode_ref p

/-- Bytes in the range accepted by a one-byte UTF-8 continuation. -/
def isCont (b : Nat) : Bool := decide (128 ≤ b) && decide (b ≤ 191)

/-- UTF-8 validity of a byte sequence, as checked by `String::from_utf8`. -/
def validUtf8 : List Nat → Bool
  | [] => true
  | b :: r =>
    if b ≤ 127 then validUtf8 r
    else if 194 ≤ b ∧ b ≤ 223 then
      match r with
      | c1 :: r' => isCont c1 && validUtf8 r'
      | [] => false
    else if b = 224 then
      match r with
      | c1 :: c2 :: r' => decide (160 ≤ c1 ∧ c1 ≤ 191) && isCont c2 && validUtf8 r'
      | _ => false
    else if (225 ≤ b ∧ b ≤ 236) ∨ b = 238 ∨ b = 239 then
      match r with
      | c1 :: c2 :: r' => isCont c1 && isCont c2 && validUtf8 r'
      | _ => false
    else if b = 237 then
      match r with
      | c1 :: c2 :: r' => decide (128 ≤ c1 ∧ c1 ≤ 159) && isCont c2 && validUtf8 r'
      | _ => false
    else if b = 240 then
      match r with
      | c1 :: c2 :: c3 :: r' =>
        decide (144 ≤ c1 ∧ c1 ≤ 191) && isCont c2 && isCont c3 && validUtf8 r'
      | _ => false
    else if 241 ≤ b ∧ b ≤ 243 then
      match r with
      | c1 :: c2 :: c3 :: r' => isCont c1 && isCont c2 && isCont c3 && validUtf8 r'
      | _ => false
    else if b = 244 then
      match r with
      | c1 :: c2 :: c3 :: r' =>
        decide (128 ≤ c1 ∧ c1 ≤ 143) && isCont c2 && isCont c3 && validUtf8 r'
      | _ => false
    else false

/-- A component as produced by a real Rust `String`: its byte length fits in
a `usize` and its bytes are valid UTF-8. -/
def okComp (c : Comp) : Prop := c.length < 2 ^ 64 ∧ validUtf8 c = true

instance (c : Comp) : Decidable (okComp c) := by unfold okComp; infer_instance

/-- `Schema::decode_ref`: the reverse walk.  `none` models a Rust panic
(an out-of-range slice of the length field or body, or `String::from_utf8`
failing); the source unwraps or indexes directly at each of these points. -/
def decode_ref (b : List Nat) : Option Path :=
  if b.isEmpty then some []
  else if b.length < 8 then none
  else if (b.drop 8).length < fromLeBytes (b.take 8) then none
  else if validUtf8 ((b.drop 8).take (fromLeBytes (b.take 8))) = false then none
  else
    match decode_ref ((b.drop 8).drop (fromLeBytes (b.take 8))) with
    | some p => some ((b.drop 8).take (fromLeBytes (b.take 8)) :: p)
    | none => none
termination_by b.length
decreasing_by
  simp only [List.length_drop]
  have hb : ¬b.isEmpty = true := by assumption
  have : 0 < b.length := by
    cases b
    · simp at hb
    · simp
  omega

@[simp] theorem length_encComp (c : Comp) : (encComp c).length = 8 + c.length := by
  simp [encComp]

theorem encode_ref_append (p q : Path) :
    encode_ref (p ++ q) = encode_ref p ++ encode_ref q := by
  induction p with
  | nil => simp [encode_ref]
  | cons c p ih => simp [encode_ref, ih]

/-- Round-trip of the codec on real component lists. -/
theorem decode_encode (p : Path) (h : ∀ c ∈ p, okComp c) :
    decode_ref (encode_ref p) = some p := by
  induction p with
  | nil => simp [encode_ref, decode_ref]
  | cons c p ih =>
    obtain ⟨hlen, hutf⟩ := h c (by simp)
    have hbody : encode_ref (c :: p) = toLeBytes 8 c.length ++ (c ++ encode_ref p) := by
      simp [encode_ref, encComp]
    have hne : (toLeBytes 8 c.length ++ (c ++ encode_ref p)).isEmpty = false := rfl
    have htake : (toLeBytes 8 c.length ++ (c ++ encode_ref p)).take 8
        = toLeBytes 8 c.length := List.take_left' (by simp)
    have hdrop : (toLeBytes 8 c.length ++ (c ++ encode_ref p)).drop 8
        = c ++ encode_ref p := List.drop_left' (by simp)
    have hn : fromLeBytes (toLeBytes 8 c.length) = c.length := by
      rw [fromLeBytes_toLeBytes, pow_256_8, Nat.mod_eq_of_lt hlen]
    rw [hbody, decode_ref]
    rw [if_neg (by simp [hne])]
    rw [if_neg (by simp only [List.length_append, length_toLeBytes]; omega)]
    rw [htake, hdrop, hn]
    rw [if_neg (by simp only [List.length_append]; omega)]
    rw [List.take_left, List.drop_left]
    rw [if_neg (by simp [hutf])]
    rw [ih (fun x hx => h x (by simp [hx]))]

/-- A successful decode certifies that the input was a genuine encoding:
there is no other input on which the decoder returns. -/
theorem decode_sound (b : List Nat) (hb : ∀ x ∈ b, x < 256) (p : Path)
    (h : decode_ref b = some p) : encode_ref p = b := by
  generalize hm : b.length = m
  induction m using Nat.strong_induction_on generalizing b p with
  | _ m ih =>
    subst hm
    rw [decode_ref] at h
    by_cases hemp : b.isEmpty
    · rw [if_pos hemp] at h
      cases h
      have hbnil : b = [] := by
        cases b
        · rfl
        · simp at hemp
      simp [hbnil, encode_ref]
    · rw [if_neg hemp] at h
      split at h
      · exact absurd h (by simp)
      · rename_i hlen8
        split at h
        · exact absurd h (by simp)
        · rename_i hrest
          split at h
          · exact absurd h (by simp)
          · rename_i hutf
            split at h
            · rename_i p' hp'
              cases h
              have hblen : 0 < b.length := by
                cases b with
                | nil => simp at hemp
                | cons x xs => simp
              have hrestlen : (b.drop 8).length = b.length - 8 := by
                simp
              rw [Nat.not_lt] at hrest hlen8
              have hdroplen :
                  ((b.drop 8).drop (fromLeBytes (b.take 8))).length < b.length := by
                simp only [List.length_drop]
                omega
              have hsub : ∀ x ∈ (b.drop 8).drop (fromLeBytes (b.take 8)), x < 256 := by
                intro x hx
                exact hb x (List.mem_of_mem_drop (List.mem_of_mem_drop hx))
              have hrec := ih _ hdroplen _ hsub _ hp' rfl
              simp only [encode_ref, encComp]
              have hlentake : ((b.drop 8).take (fromLeBytes (b.take 8))).length
                  = fromLeBytes (b.take 8) := by
                simp only [List.length_take, List.length_drop]
                omega
              rw [hlentake]
              have htl : toLeBytes 8 (fromLeBytes (b.take 8)) = b.take 8 := by
                have h8 : (b.take 8).length = 8 := by
                  simp only [List.length_take]; omega
                have hround := toLeBytes_fromLeBytes
                  (l := b.take 8) (fun x hx => hb x (List.mem_of_mem_take hx))
                rw [h8] at hround
                exact hround
              rw [htl, hrec, List.append_assoc, List.take_append_drop,
                List.take_append_drop]
            · exact absurd h (by simp)

/-- Two length-prefixed component blocks in prefix position force the
components equal. -/
theorem encComp_append_prefix {c d : Comp} {x y : List Nat}
    (hc : c.length < 2 ^ 64) (hd : d.length < 2 ^ 64)
    (h : encComp c ++ x <+: encComp d ++ y) : c = d ∧ x <+: y := by
  obtain ⟨t, ht⟩ := h
  rw [encComp, encComp, List.append_assoc, List.append_assoc,
    List.append_assoc] at ht
  have h8 : toLeBytes 8 c.length = toLeBytes 8 d.length := by
    have := congrArg (List.take 8) ht
    rwa [List.take_left' (by simp), List.take_left' (by simp)] at this
  have hlen : c.length = d.length := by
    refine toLeBytes_injOn ?_ ?_ h8 <;> rw [pow_256_8] <;> assumption
  have hdrop : c ++ (x ++ t) = d ++ y := by
    have := congrArg (List.drop 8) ht
    rwa [List.drop_left' (by simp), List.drop_left' (by simp)] at this
  have hcd : c = d := by
    have := congrArg (List.take c.length) hdrop
    rwa [List.take_left, hlen, List.take_left] at this
  subst hcd
  exact ⟨rfl, ⟨t, List.append_cancel_left hdrop⟩⟩

/-- Ancestor paths and only ancestor paths encode to byte prefixes. -/
theorem encode_prefix_iff : ∀ (A B : Path), (∀ c ∈ A, c.length < 2 ^ 64) →
    (∀ c ∈ B, c.length < 2 ^ 64) →
    (encode_ref A <+: encode_ref B ↔ A <+: B) := by
  intro A
  induction A with
  | nil =>
    intro B hA hB
    simp [encode_ref]
  | cons c A ih =>
    intro B hA hB
    cases B with
    | nil =>
      constructor
      · intro h
        have hl := h.length_le
        simp [encode_ref] at hl
      · intro h
        exact absurd h (by simp)
    | cons d B =>
      have hc : c.length < 2 ^ 64 := hA c (by simp)
      have hd : d.length < 2 ^ 64 := hB d (by simp)
      constructor
      · intro h
        simp only [encode_ref] at h
        obtain ⟨hcd, hxy⟩ := encComp_append_prefix hc hd h
        subst hcd
        refine List.cons_prefix_cons.mpr ⟨rfl, ?_⟩
        exact (ih B (fun u hu => hA u (by simp [hu]))
          (fun u hu => hB u (by simp [hu]))).mp hxy
      · intro h
        obtain ⟨hcd, hAB⟩ := List.cons_prefix_cons.mp h
        subst hcd
        simp only [encode_ref]
        obtain ⟨t, ht⟩ := (ih B (fun u hu => hA u (by simp [hu]))
          (fun u hu => hB u (by simp [hu]))).mpr hAB
        exact ⟨t, by rw [List.append_assoc, ht]⟩

/-! ### The byte-keyed store (sled `Db` / `TransactionalTree`)

The underlying ordered map is modelled as an association list in which the
most recent insertion shadows older entries; `Store.get` takes the first
match, `Store.insert` conses, `Store.erase` drops every entry at the key. -/

/-- The sled tree: byte keys mapped to byte values. -/
abbrev Store : Type := List (List Nat × List Nat)

/-- Read a key (`Tree::get` / `contains_key`). -/
def Store.get (s : Store) (k : List Nat) : Option (List Nat) :=
  match s with
  | [] => none
  | (k', v) :: r => if k' = k then some v else Store.get r k

/-- Write a key (`Tree::insert`). -/
def Store.insert (s : Store) (k v : List Nat) : Store := (k, v) :: s

/-- Delete a key (`Tree::remove`): every entry at the key is dropped. -/
def Store.erase (s : Store) (k : List Nat) : Store :=
  match s with
  | [] => []
  | (k', v) :: r => if k' = k then Store.erase r k else (k', v) :: Store.erase r k

@[simp] theorem Store.get_nil (k : List Nat) : Store.get [] k = none := rfl

@[simp] theorem Store.get_cons (k1 v1 : List Nat) (r : Store) (k : List Nat) :
    Store.get ((k1, v1) :: r) k = if k1 = k then some v1 else Store.get r k := rfl

@[simp] theorem Store.get_insert (s : Store) (k v k' : List Nat) :
    (s.insert k v).get k' = if k = k' then some v else s.get k' := by
  simp [Store.insert]

@[simp] theorem Store.get_erase (s : Store) (k k' : List Nat) :
    (s.erase k).get k' = if k = k' then none else s.get k' := by
  induction s with
  | nil => simp [Store.erase]
  | cons kv r ih =>
    obtain ⟨k1, v1⟩ := kv
    rw [Store.erase]
    by_cases h1 : k1 = k
    · subst h1
      rw [if_pos rfl, ih]
      by_cases h2 : k1 = k'
      · simp [h2]
      · simp [h2]
    · rw [if_neg h1, Store.get_cons, ih]
      by_cases h2 : k1 = k'
      · subst h2
        rw [if_pos rfl, Store.get_cons, if_pos rfl, if_neg (fun h => h1 h.symm)]
      · rw [if_neg h2, Store.get_cons, if_neg h2]

/-! ### Byte-lexicographic string order (Rust `Ord for String`, used by
`serde_json::Map`, a `BTreeMap` keyed by `String`) -/

/-- Strict byte-lexicographic order on components. -/
def keyLt : List Nat → List Nat → Bool
  | [], [] => false
  | [], _ :: _ => true
  | _ :: _, [] => false
  | a :: as, b :: bs => if a < b then true else if b < a then false else keyLt as bs

theorem keyLt_irrefl (a : List Nat) : keyLt a a = false := by
  induction a with
  | nil => rfl
  | cons x xs ih => simp [keyLt, ih]

theorem keyLt_asymm {a b : List Nat} (h : keyLt a b = true) : keyLt b a = false := by
  induction a generalizing b with
  | nil =>
    cases b with
    | nil => simp [keyLt] at h
    | cons y ys => simp [keyLt]
  | cons x xs ih =>
    cases b with
    | nil => simp [keyLt] at h
    | cons y ys =>
      simp only [keyLt] at h ⊢
      rcases Nat.lt_trichotomy x y with hxy | hxy | hxy
      · simp [hxy, Nat.lt_asymm hxy, Nat.ne_of_lt' hxy]
      · subst hxy
        simp only [lt_irrefl, if_false] at h ⊢
        exact ih (by simpa using h)
      · simp [hxy, Nat.lt_asymm hxy] at h

theorem keyLt_trans {a b c : List Nat} (h1 : keyLt a b = true)
    (h2 : keyLt b c = true) : keyLt a c = true := by
  induction a generalizing b c with
  | nil =>
    cases c with
    | nil =>
      cases b with
      | nil => simp [keyLt] at h1
      | cons y ys => simp [keyLt] at h2
    | cons z zs => simp [keyLt]
  | cons x xs ih =>
    cases b with
    | nil => simp [keyLt] at h1
    | cons y ys =>
      cases c with
      | nil => simp [keyLt] at h2
      | cons z zs =>
        simp only [keyLt] at h1 h2 ⊢
        rcases Nat.lt_trichotomy x y with hxy | hxy | hxy
        · rcases Nat.lt_trichotomy y z with hyz | hyz | hyz
          · simp [Nat.lt_trans hxy hyz]
          · subst hyz; simp [hxy]
          · simp [hyz, Nat.lt_asymm hyz] at h2
        · subst hxy
          simp only [lt_irrefl, if_false] at h1
          rcases Nat.lt_trichotomy x z with hyz | hyz | hyz
          · simp [hyz]
          · subst hyz
            simp only [lt_irrefl, if_false] at h2 ⊢
            exact ih (by simpa using h1) (by simpa using h2)
          · simp [hyz, Nat.lt_asymm hyz] at h2
        · simp [hxy, Nat.lt_asymm hxy] at h1

theorem keyLt_connex {a b : List Nat} (h : a ≠ b) :
    keyLt a b = true ∨ keyLt b a = true := by
  induction a generalizing b with
  | nil =>
    cases b with
    | nil => exact absurd rfl h
    | cons y ys => left; rfl
  | cons x xs ih =>
    cases b with
    | nil => right; rfl
    | cons y ys =>
      rcases Nat.lt_trichotomy x y with hxy | hxy | hxy
      · left; simp [keyLt, hxy]
      · subst hxy
        have hne : xs ≠ ys := fun hh => h (by rw [hh])
        rcases ih hne with h1 | h1
        · left; simp [keyLt, h1]
        · right; simp [keyLt, h1]
      · right; simp [keyLt, hxy]

theorem keyLt_ne {a b : List Nat} (h : keyLt a b = true) : a ≠ b := by
  intro hab
  subst hab
  rw [keyLt_irrefl] at h
  exact absurd h (by simp)

/-! ### Sorted-set and sorted-map operations (`HashSet` contents serialised
canonically, `serde_json::Map` as a sorted association list) -/

/-- Insert a component into a sorted component list. -/
def insSorted (c : Comp) : List Comp → List Comp
  | [] => [c]
  | x :: xs => if keyLt c x then c :: x :: xs else x :: insSorted c xs

/-- `HashSet::insert` guarded by `contains`, as in `tx_insert`'s
collection-index maintenance. -/
def setAdd (ks : List Comp) (c : Comp) : List Comp :=
  if c ∈ ks then ks else insSorted c ks

/-- `serde_json::Map::insert`: sorted association-list insertion with
replacement. -/
def mapInsert {α : Type} (k : Comp) (v : α) :
    List (Comp × α) → List (Comp × α)
  | [] => [(k, v)]
  | (k', v') :: rest =>
    if keyLt k k' then (k, v) :: (k', v') :: rest
    else if k = k' then (k, v) :: rest
    else (k', v') :: mapInsert k v rest

/-- `serde_json::Map::get` / `HashMap::get`: first association match. -/
def mapFind {α : Type} (m : List (Comp × α)) (k : Comp) : Option α :=
  match m with
  | [] => none
  | (k', v) :: rest => if k' = k then some v else mapFind rest k

/-! ### Collection membership-set codec (bincode of `HashSet<String>`:
a u64 element count followed by length-prefixed elements; the canonical
serialisation order used by the model is sorted order) -/

/-- Body of a serialised key set: length-prefixed elements. -/
def ksBody : List Comp → List Nat
  | [] => []
  | c :: r => toLeBytes 8 c.length ++ c ++ ksBody r

/-- `bincode::serialize` of a key set. -/
def encodeKeySet (ks : List Comp) : List Nat := toLeBytes 8 ks.length ++ ksBody ks

/-- Parse `n` length-prefixed elements; `none` models a bincode failure,
which the source turns into a panic via `.expect(..)`. -/
def decodeElems : Nat → List Nat → Option (List Comp)
  | 0, _ => some []
  | n + 1, b =>
    if b.length < 8 then none
    else if (b.drop 8).length < fromLeBytes (b.take 8) then none
    else if validUtf8 ((b.drop 8).take (fromLeBytes (b.take 8))) = false then none
    else
      match decodeElems n ((b.drop 8).drop (fromLeBytes (b.take 8))) with
      | some es => some ((b.drop 8).take (fromLeBytes (b.take 8)) :: es)
      | none => none

/-- `bincode::deserialize` of a key set. -/
def decodeKeySet (b : List Nat) : Option (List Comp) :=
  if b.length < 8 then none
  else decodeElems (fromLeBytes (b.take 8)) (b.drop 8)

theorem decodeElems_ksBody (ks : List Comp) (t : List Nat)
    (h : ∀ c ∈ ks, okComp c) :
    decodeElems ks.length (ksBody ks ++ t) = some ks := by
  induction ks with
  | nil => simp [decodeElems]
  | cons c r ih =>
    obtain ⟨hlen, hutf⟩ := h c (by simp)
    have hb : ksBody (c :: r) ++ t
        = toLeBytes 8 c.length ++ (c ++ (ksBody r ++ t)) := by
      simp [ksBody]
    rw [List.length_cons, hb, decodeElems]
    rw [if_neg (by simp only [List.length_append, length_toLeBytes]; omega)]
    rw [List.take_left' (by simp), List.drop_left' (by simp)]
    have hn : fromLeBytes (toLeBytes 8 c.length) = c.length := by
      rw [fromLeBytes_toLeBytes, pow_256_8, Nat.mod_eq_of_lt hlen]
    rw [hn]
    rw [if_neg (by simp only [List.length_append]; omega)]
    rw [List.take_left, List.drop_left]
    rw [if_neg (by simp [hutf])]
    rw [ih (fun x hx => h x (by simp [hx]))]

/-- Round-trip of the key-set codec. -/
theorem decodeKeySet_encodeKeySet (ks : List Comp)
    (hlen : ks.length < 2 ^ 64) (h : ∀ c ∈ ks, okComp c) :
    decodeKeySet (encodeKeySet ks) = some ks := by
  rw [encodeKeySet, decodeKeySet]
  rw [if_neg (by simp only [List.length_append, length_toLeBytes]; omega)]
  rw [List.take_left' (by simp), List.drop_left' (by simp)]
  rw [fromLeBytes_toLeBytes, pow_256_8, Nat.mod_eq_of_lt hlen]
  have := decodeElems_ksBody ks [] h
  rwa [List.append_nil] at this

/-! ### JSON values and the schema tree -/

/-- `serde_json::Value`.  Strings are UTF-8 byte lists; objects are
association lists with strictly increasing keys (`serde_json::Map` is a
`BTreeMap`).  Numbers never have their value inspected by the engine (they
only ever hit `SchemaMismatch` branches), so an `Int` payload suffices. -/
inductive JValue : Type where
  | null : JValue
  | bool (b : Bool) : JValue
  | num (n : Int) : JValue
  | str (s : List Nat) : JValue
  | arr (xs : List JValue) : JValue
  | obj (kvs : List (Comp × JValue)) : JValue

/-- `SchemaItem` from src/schema.rs.  The `HashMap` of document fields is
modelled as an association list with pairwise distinct keys. -/
inductive SchemaItem : Type where
  | Collection (inner : SchemaItem) : SchemaItem
  | Document (fields : List (Comp × SchemaItem)) : SchemaItem
  | Scalar : SchemaItem

/-- `SchemaResolutionError` from src/schema.rs. -/
inductive SchemaResolutionError : Type where
  | UnknownField (f : Comp) : SchemaResolutionError
  | IllegalRefOnScalar : SchemaResolutionError
deriving DecidableEq

/-- `ServerError` from src/server.rs.  `Panic` is not a variant of the
source enum: it models a Rust panic (`unwrap` / `expect` / `HashMap`
indexing), which unwinds out of the transaction without committing. -/
inductive ServerError : Type where
  | SchemaError (e : SchemaResolutionError) : ServerError
  | KeyNotFound : ServerError
  | ExtraKeyFound : ServerError
  | SchemaMismatch : ServerError
  | NonDocumentInsert : ServerError
  | Panic : ServerError
deriving DecidableEq

/-- `HashMap::get` on a document's field map. -/
def findField (fields : List (Comp × SchemaItem)) (k : Comp) : Option SchemaItem :=
  match fields with
  | [] => none
  | (k', v) :: r => if k' = k then some v else findField r k

/-- `SchemaItem::resolve` from src/schema.rs. -/
def resolveItem : SchemaItem → Path → Except SchemaResolutionError SchemaItem
  | sch, [] => .ok sch
  | .Collection inner, _ :: rest => resolveItem inner rest
  | .Document fields, c :: rest =>
    match findField fields c with
    | some f => resolveItem f rest
    | none => .error (.UnknownField c)
  | .Scalar, _ :: _ => .error .IllegalRefOnScalar

/-- `Schema::resolve`: resolution from the root. -/
def resolve (root : SchemaItem) (p : Path) : Except SchemaResolutionError SchemaItem :=
  resolveItem root p

theorem sizeOf_findField {fields : List (Comp × SchemaItem)} {k : Comp}
    {f : SchemaItem} (h : findField fields k = some f) : sizeOf f < sizeOf fields := by
  induction fields with
  | nil => simp [findField] at h
  | cons kv r ih =>
    obtain ⟨k1, f1⟩ := kv
    rw [findField] at h
    by_cases h1 : k1 = k
    · rw [if_pos h1] at h
      cases h
      simp
      omega
    · rw [if_neg h1] at h
      have := ih h
      simp
      omega

/-! ### The store engine (src/server.rs) -/

/-- Collection-index maintenance at the tail of `tx_insert`: for a key of
length above one whose parent resolves to a `Collection`, merge the last
component into the set stored at the parent's encoded key (read-modify-write;
no write when the name is already present). -/
def insertParentIndex (root : SchemaItem) (p : Path) (s : Store) :
    Except ServerError Store :=
  if p.length > 1 then
    match resolve root p.dropLast with
    | .error e => .error (.SchemaError e)
    | .ok (.Collection _) =>
      match s.get (encode_ref p.dropLast) with
      | none =>
        .ok (s.insert (encode_ref p.dropLast) (encodeKeySet (insSorted (p.getLastD []) [])))
      | some bytes =>
        match decodeKeySet bytes with
        | none => .error .Panic
        | some ks =>
          if p.getLastD [] ∈ ks then .ok s
          else .ok (s.insert (encode_ref p.dropLast)
            (encodeKeySet (insSorted (p.getLastD []) ks)))
    | .ok _ => .ok s
  else .ok s

/-- Collection-index maintenance at the tail of `tx_remove`: remove the last
component from the parent's set and write the result back unconditionally. -/
def removeParentIndex (root : SchemaItem) (p : Path) (s : Store) :
    Except ServerError Store :=
  if p.length > 1 then
    match resolve root p.dropLast with
    | .error e => .error (.SchemaError e)
    | .ok (.Collection _) =>
      match
        (match s.get (encode_ref p.dropLast) with
         | none => some ([] : List Comp)
         | some bytes => decodeKeySet bytes) with
      | none => .error .Panic
      | some ks =>
        .ok (s.insert (encode_ref p.dropLast)
          (encodeKeySet (ks.erase (p.getLastD []))))
    | .ok _ => .ok s
  else .ok s

mutual

/-- `TransactionHandler::tx_insert`.  The recursive calls on a document's
fields pass the schema found for each entry; the two `all` checks mirror the
containment loops that precede the presence write. -/
def tx_insert (root : SchemaItem) (p : Path) (sch : SchemaItem) (v : JValue)
    (s : Store) : Except ServerError Store :=
  match sch, v with
  | .Collection inner, .obj kvs =>
    match insertChildren root p inner kvs s with
    | .ok s1 => insertParentIndex root p s1
    | .error e => .error e
  | .Collection _, _ => .error .SchemaMismatch
  | .Document fields, .obj kvs =>
    if kvs.all (fun kv => (findField fields kv.1).isSome) then
      if fields.all (fun f => kvs.any (fun kv => kv.1 = f.1)) then
        match insertDocChildren root p fields kvs (s.insert (encode_ref p) [1]) with
        | .ok s1 => insertParentIndex root p s1
        | .error e => .error e
      else .error .SchemaMismatch
    else .error .ExtraKeyFound
  | .Document _, _ => .error .SchemaMismatch
  | .Scalar, .str b => insertParentIndex root p (s.insert (encode_ref p) b)
  | .Scalar, _ => .error .SchemaMismatch
termination_by (sizeOf sch, 0)
decreasing_by
  · apply Prod.Lex.left
    simp
  · apply Prod.Lex.left
    simp

/-- The `for (primary_key, value) in obj` loop of `tx_insert`'s collection
case. -/
def insertChildren (root : SchemaItem) (p : Path) (inner : SchemaItem)
    (kvs : List (Comp × JValue)) (s : Store) : Except ServerError Store :=
  match kvs with
  | [] => .ok s
  | (k, v) :: rest =>
    match tx_insert root (p ++ [k]) inner v s with
    | .ok s1 => insertChildren root p inner rest s1
    | .error e => .error e
termination_by (sizeOf inner, kvs.length + 1)
decreasing_by
  · apply Prod.Lex.right
    simp only [List.length_cons]
    omega
  · apply Prod.Lex.right
    simp only [List.length_cons]
    omega

/-- The `for (obj_key, obj_value) in obj` loop of `tx_insert`'s document
case.  The `none` branch models the panic of `fields[obj_key]`; it is
unreachable because the loop runs only after every object key was checked to
be a declared field. -/
def insertDocChildren (root : SchemaItem) (p : Path)
    (fields : List (Comp × SchemaItem)) (kvs : List (Comp × JValue))
    (s : Store) : Except ServerError Store :=
  match kvs with
  | [] => .ok s
  | (k, v) :: rest =>
    match hf : findField fields k with
    | some f =>
      match tx_insert root (p ++ [k]) f v s with
      | .ok s1 => insertDocChildren root p fields rest s1
      | .error e => .error e
    | none => .error .Panic
termination_by (sizeOf fields, kvs.length + 1)
decreasing_by
  · apply Prod.Lex.left
    have := sizeOf_findField hf
    omega
  · apply Prod.Lex.right
    simp only [List.length_cons]
    omega

end

mutual

/-- `TransactionHandler::tx_update`.  In the document case the source first
removes the presence key and only then checks it for presence; the model
keeps that order. -/
def tx_update (root : SchemaItem) (p : Path) (sch : SchemaItem) (v : JValue)
    (s : Store) : Except ServerError Store :=
  match sch, v with
  | .Collection inner, .obj kvs =>
    if (s.get (encode_ref p)).isNone then .error .KeyNotFound
    else updateColChildren root p inner kvs s
  | .Collection _, _ => .error .SchemaMismatch
  | .Document fields, .obj kvs =>
    if ((s.erase (encode_ref p)).get (encode_ref p)).isNone then .error .KeyNotFound
    else updateDocChildren root p fields kvs (s.erase (encode_ref p))
  | .Document _, _ => .error .SchemaMismatch
  | .Scalar, .str b =>
    if (s.get (encode_ref p)).isNone then .error .KeyNotFound
    else .ok (s.insert (encode_ref p) b)
  | .Scalar, _ => .error .SchemaMismatch
termination_by (sizeOf sch, 0)
decreasing_by
  · apply Prod.Lex.left
    simp
  · apply Prod.Lex.left
    simp

/-- The collection loop of `tx_update`. -/
def updateColChildren (root : SchemaItem) (p : Path) (inner : SchemaItem)
    (kvs : List (Comp × JValue)) (s : Store) : Except ServerError Store :=
  match kvs with
  | [] => .ok s
  | (k, v) :: rest =>
    match tx_update root (p ++ [k]) inner v s with
    | .ok s1 => updateColChildren root p inner rest s1
    | .error e => .error e
termination_by (sizeOf inner, kvs.length + 1)
decreasing_by
  · apply Prod.Lex.right
    simp only [List.length_cons]
    omega
  · apply Prod.Lex.right
    simp only [List.length_cons]
    omega

/-- The document loop of `tx_update`: an entry whose key is not a declared
field aborts with `ExtraKeyFound`. -/
def updateDocChildren (root : SchemaItem) (p : Path)
    (fields : List (Comp × SchemaItem)) (kvs : List (Comp × JValue))
    (s : Store) : Except ServerError Store :=
  match kvs with
  | [] => .ok s
  | (k, v) :: rest =>
    match hf : findField fields k with
    | some f =>
      match tx_update root (p ++ [k]) f v s with
      | .ok s1 => updateDocChildren root p fields rest s1
      | .error e => .error e
    | none => .error .ExtraKeyFound
termination_by (sizeOf fields, kvs.length + 1)
decreasing_by
  · apply Prod.Lex.left
    have := sizeOf_findField hf
    omega
  · apply Prod.Lex.right
    simp only [List.length_cons]
    omega

end

mutual

/-- `TransactionHandler::tx_remove`. -/
def tx_remove (root : SchemaItem) (p : Path) (sch : SchemaItem) (s : Store) :
    Except ServerError Store :=
  match sch with
  | .Collection inner =>
    match s.get (encode_ref p) with
    | none => .error .KeyNotFound
    | some bytes =>
      match decodeKeySet bytes with
      | none => .error .Panic
      | some ks =>
        match removeColChildren root p inner ks s with
        | .ok s1 => removeParentIndex root p (s1.erase (encode_ref p))
        | .error e => .error e
  | .Document fields =>
    match removeDocChildren root p fields (s.erase (encode_ref p)) with
    | .ok s1 => removeParentIndex root p s1
    | .error e => .error e
  | .Scalar => removeParentIndex root p (s.erase (encode_ref p))
termination_by (sizeOf sch, 0)
decreasing_by
  · apply Prod.Lex.left
    simp
  · apply Prod.Lex.left
    simp

/-- The member loop of `tx_remove`'s collection case. -/
def removeColChildren (root : SchemaItem) (p : Path) (inner : SchemaItem)
    (ks : List Comp) (s : Store) : Except ServerError Store :=
  match ks with
  | [] => .ok s
  | k :: rest =>
    match tx_remove root (p ++ [k]) inner s with
    | .ok s1 => removeColChildren root p inner rest s1
    | .error e => .error e
termination_by (sizeOf inner, ks.length + 1)
decreasing_by
  · apply Prod.Lex.right
    simp only [List.length_cons]
    omega
  · apply Prod.Lex.right
    simp only [List.length_cons]
    omega

/-- The field loop of `tx_remove`'s document case. -/
def removeDocChildren (root : SchemaItem) (p : Path)
    (fields : List (Comp × SchemaItem)) (s : Store) : Except ServerError Store :=
  match fields with
  | [] => .ok s
  | (f, ty) :: rest =>
    match tx_remove root (p ++ [f]) ty s with
    | .ok s1 => removeDocChildren root p rest s1
    | .error e => .error e
termination_by (sizeOf fields, 0)
decreasing_by
  · apply Prod.Lex.left
    simp
    try omega
  · apply Prod.Lex.left
    simp
    try omega

end

/-! ### Reads (`Server::get`), instrumented with the store operations they
perform -/

/-- One primitive call against the sled tree. -/
inductive StoreOp : Type where
  | read (k : List Nat) : StoreOp
  | write (k v : List Nat) : StoreOp
  | del (k : List Nat) : StoreOp

/-- Whether an operation is a pure read. -/
def StoreOp.isRead : StoreOp → Bool
  | .read _ => true
  | _ => false

/-- Replay a trace of store operations. -/
def runOps (s : Store) : List StoreOp → Store
  | [] => s
  | .read _ :: r => runOps s r
  | .write k v :: r => runOps (s.insert k v) r
  | .del k :: r => runOps (s.erase k) r

mutual

/-- `Server::get`, returning both the result and the trace of store calls it
makes.  The source recursively calls `self.get(&sub_key)`, which re-resolves
the sub-path from the root; resolution of `p ++ [c]` yields exactly the child
node passed here (`resolve_snoc_*` below), so passing the child schema is the
same function.  Reading a collection builds the result map over the decoded
member set; reading a document iterates the declared fields. -/
def getTr (root : SchemaItem) (p : Path) (sch : SchemaItem) (s : Store) :
    Except ServerError JValue × List StoreOp :=
  match sch with
  | .Collection inner =>
    match s.get (encode_ref p) with
    | none => (.ok (.obj []), [.read (encode_ref p)])
    | some bytes =>
      match decodeKeySet bytes with
      | none => (.error .Panic, [.read (encode_ref p)])
      | some ks =>
        match getColChildren root p inner ks [] s with
        | (.ok m, tr) => (.ok (.obj m), .read (encode_ref p) :: tr)
        | (.error e, tr) => (.error e, .read (encode_ref p) :: tr)
  | .Document fields =>
    match s.get (encode_ref p) with
    | none => (.ok .null, [.read (encode_ref p)])
    | some _ =>
      match getDocChildren root p fields [] s with
      | (.ok m, tr) => (.ok (.obj m), .read (encode_ref p) :: tr)
      | (.error e, tr) => (.error e, .read (encode_ref p) :: tr)
  | .Scalar =>
    match s.get (encode_ref p) with
    | some bytes =>
      if validUtf8 bytes then (.ok (.str bytes), [.read (encode_ref p)])
      else (.error .Panic, [.read (encode_ref p)])
    | none => (.error .KeyNotFound, [.read (encode_ref p)])
termination_by (sizeOf sch, 0)
decreasing_by
  · apply Prod.Lex.left
    simp
  · apply Prod.Lex.left
    simp

/-- The member loop of `Server::get`'s collection case. -/
def getColChildren (root : SchemaItem) (p : Path) (inner : SchemaItem)
    (ks : List Comp) (acc : List (Comp × JValue)) (s : Store) :
    Except ServerError (List (Comp × JValue)) × List StoreOp :=
  match ks with
  | [] => (.ok acc, [])
  | k :: rest =>
    match getTr root (p ++ [k]) inner s with
    | (.ok v, tr1) =>
      match getColChildren root p inner rest (mapInsert k v acc) s with
      | (r, tr2) => (r, tr1 ++ tr2)
    | (.error e, tr1) => (.error e, tr1)
termination_by (sizeOf inner, ks.length + 1)
decreasing_by
  · apply Prod.Lex.right
    simp only [List.length_cons]
    omega
  · apply Prod.Lex.right
    simp only [List.length_cons]
    omega

/-- The field loop of `Server::get`'s document case. -/
def getDocChildren (root : SchemaItem) (p : Path)
    (fields : List (Comp × SchemaItem)) (acc : List (Comp × JValue)) (s : Store) :
    Except ServerError (List (Comp × JValue)) × List StoreOp :=
  match fields with
  | [] => (.ok acc, [])
  | (f, sch) :: rest =>
    match getTr root (p ++ [f]) sch s with
    | (.ok v, tr1) =>
      match getDocChildren root p rest (mapInsert f v acc) s with
      | (r, tr2) => (r, tr1 ++ tr2)
    | (.error e, tr1) => (.error e, tr1)
termination_by (sizeOf fields, 0)
decreasing_by
  · apply Prod.Lex.left
    simp
    try omega
  · apply Prod.Lex.left
    simp
    try omega

end

/-! ### The public operations of `Server` -/

/-- `Server::get` (result only). -/
def Server.getT (root : SchemaItem) (s : Store) (p : Path) :
    Except ServerError JValue × List StoreOp :=
  match resolve root p with
  | .error e => (.error (.SchemaError e), [])
  | .ok sch => getTr root p sch s

/-- `Server::get`. -/
def Server.get (root : SchemaItem) (s : Store) (p : Path) :
    Except ServerError JValue :=
  (Server.getT root s p).1

/-- `Server::insert`: a scalar target is rejected; otherwise `tx_insert`
runs inside one sled transaction.  An `error` result means the transaction
aborted (or panicked): sled then discards every write, so the caller's tree
is unchanged. -/
def Server.insert (root : SchemaItem) (s : Store) (p : Path) (v : JValue) :
    Except ServerError Store :=
  match resolve root p with
  | .error e => .error (.SchemaError e)
  | .ok .Scalar => .error .NonDocumentInsert
  | .ok sch => tx_insert root p sch v s

/-- `Server::update`. -/
def Server.update (root : SchemaItem) (s : Store) (p : Path) (v : JValue) :
    Except ServerError Store :=
  match resolve root p with
  | .error e => .error (.SchemaError e)
  | .ok sch => tx_update root p sch v s

/-- `Server::remove`. -/
def Server.remove (root : SchemaItem) (s : Store) (p : Path) :
    Except ServerError Store :=
  match resolve root p with
  | .error e => .error (.SchemaError e)
  | .ok sch => tx_remove root p sch s

/-- The tree visible after `Server::insert` returns: the new contents on
success, the untouched pre-state on an abort (sled's transaction contract:
an `Err(Abort)` commits nothing). -/
def Server.insertState (root : SchemaItem) (s : Store) (p : Path) (v : JValue) :
    Store :=
  match Server.insert root s p v with
  | .ok s1 => s1
  | .error _ => s

/-! ### The session dispatch loop (src/main.rs, `client_task`)

The request and response enums are taken from the match arms of
`client_task` (the separate src/message.rs in the repository is a stale
revision that does not agree with `client_task` or with `Schema`'s
string-typed components). -/

/-- `Operation` from src/permission.rs. -/
inductive Operation : Type where
  | Read : Operation
  | Insert : Operation
  | Update : Operation
  | Remove : Operation

/-- The request variants dispatched by `client_task`. -/
inductive ClientMessage : Type where
  | Get (key : Path) : ClientMessage
  | Insert (key : Path) (value : JValue) : ClientMessage
  | Update (key : Path) (value : JValue) : ClientMessage
  | Remove (key : Path) : ClientMessage
  | Subscribe (key : Path) : ClientMessage
  | Unsubscribe (key : Path) : ClientMessage

/-- Payload of a `ServerMessage::Error`: the literal string `"permissions"`
or the rendering `format!("{e}")` of a `ServerError`. -/
inductive ErrText : Type where
  | permissions : ErrText
  | render (e : ServerError) : ErrText

/-- The response variants emitted by `client_task` for a single request
(subscription stream events are delivered by a separate task). -/
inductive ServerMessage : Type where
  | Value (v : JValue) : ServerMessage
  | Error (t : ErrText) : ServerMessage

/-- One iteration of `client_task`'s request loop: the store afterwards, the
responses pushed to the egress queue, and whether a subscription pump was
spawned.  `none` models a panic of the task (`server.get(&key).unwrap()`).
When the permission predicate denies the operation, the source emits
`Error("permissions")` and then falls through into the operation — there is
no `continue`. -/
def handleMessage (root : SchemaItem) (check : Operation → Bool) (s : Store) :
    ClientMessage → Option (Store × List ServerMessage × Bool)
  | .Get key =>
    match Server.get root s key with
    | .ok v =>
      some (s, (if check .Read then [] else [ServerMessage.Error .permissions])
        ++ [ServerMessage.Value v], false)
    | .error _ => none
  | .Insert key v =>
    match Server.insert root s key v with
    | .ok s1 =>
      some (s1, (if check .Insert then [] else [ServerMessage.Error .permissions])
        ++ [ServerMessage.Value .null], false)
    | .error e =>
      some (s, (if check .Insert then [] else [ServerMessage.Error .permissions])
        ++ [ServerMessage.Error (.render e)], false)
  | .Update key v =>
    match Server.update root s key v with
    | .ok s1 =>
      some (s1, (if check .Update then [] else [ServerMessage.Error .permissions])
        ++ [ServerMessage.Value .null], false)
    | .error e =>
      some (s, (if check .Update then [] else [ServerMessage.Error .permissions])
        ++ [ServerMessage.Error (.render e)], false)
  | .Remove key =>
    match Server.remove root s key with
    | .ok s1 =>
      some (s1, (if check .Remove then [] else [ServerMessage.Error .permissions])
        ++ [ServerMessage.Value .null], false)
    | .error e =>
      some (s, (if check .Remove then [] else [ServerMessage.Error .permissions])
        ++ [ServerMessage.Error (.render e)], false)
  | .Subscribe _ =>
    some (s, (if check .Read then [] else [ServerMessage.Error .permissions]), true)
  | .Unsubscribe _ => some (s, [], false)

/-! ### Well-formedness and validity predicates -/

mutual

/-- Well-formedness of a schema as built from Rust data: every document's
field map has pairwise distinct keys (it is a `HashMap`) and every field
name is a real string. -/
def schemaWF : SchemaItem → Bool
  | .Collection inner => schemaWF inner
  | .Document fields =>
    (fields.map Prod.fst).Nodup && schemaWFFields fields
  | .Scalar => true

/-- Field-list component of `schemaWF`. -/
def schemaWFFields : List (Comp × SchemaItem) → Bool
  | [] => true
  | (k, f) :: rest =>
    decide (okComp k) && schemaWF f && schemaWFFields rest

end

mutual

/-- Schema validity of a value, as the claims state it: a record carrying
exactly the declared fields at a `Document`, any record of valid members at
a `Collection`, a string at a `Scalar`.  Object keys are required to be real
strings (collection member names become path components and set elements). -/
def valid : SchemaItem → JValue → Bool
  | .Scalar, .str b => validUtf8 b
  | .Scalar, _ => false
  | .Document fields, .obj kvs =>
    kvs.all (fun kv => (findField fields kv.1).isSome) &&
    fields.all (fun f => kvs.any (fun kv => kv.1 = f.1)) &&
    validDocFields fields kvs
  | .Document _, _ => false
  | .Collection inner, .obj kvs => validChildren inner kvs
  | .Collection _, _ => false
termination_by sch v => (sizeOf sch, 0)
decreasing_by
  · apply Prod.Lex.left
    simp
  · apply Prod.Lex.left
    simp

/-- Validity of a document value's entries against their declared fields. -/
def validDocFields (fields : List (Comp × SchemaItem)) :
    List (Comp × JValue) → Bool
  | [] => true
  | (k, v) :: rest =>
    (match hf : findField fields k with
     | some f => decide (okComp k) && valid f v
     | none => false) &&
    validDocFields fields rest
termination_by kvs => (sizeOf fields, kvs.length + 1)
decreasing_by
  · apply Prod.Lex.left
    have := sizeOf_findField hf
    omega
  · apply Prod.Lex.right
    simp only [List.length_cons]
    omega

/-- Validity of a collection value's members against the inner schema. -/
def validChildren (inner : SchemaItem) : List (Comp × JValue) → Bool
  | [] => true
  | (k, v) :: rest =>
    decide (okComp k) && valid inner v && validChildren inner rest
termination_by kvs => (sizeOf inner, kvs.length + 1)
decreasing_by
  · apply Prod.Lex.right
    simp only [List.length_cons]
    omega
  · apply Prod.Lex.right
    simp only [List.length_cons]
    omega

end

/-- Strictly increasing key sequence, as a `BTreeMap`'s entries are. -/
def sortedKeysB : List Comp → Bool
  | [] => true
  | [_] => true
  | a :: b :: r => keyLt a b && sortedKeysB (b :: r)

mutual

/-- Canonicity of a `serde_json::Value`: every object's keys are strictly
increasing in byte-lexicographic order (a `serde_json::Map` is a `BTreeMap`)
and small enough to serialise, recursively. -/
def canon : JValue → Bool
  | .null | .bool _ | .num _ | .str _ => true
  | .arr xs => canonArr xs
  | .obj kvs =>
    decide (kvs.length < 2 ^ 64) && sortedKeysB (kvs.map Prod.fst) && canonKVs kvs

/-- Array component of `canon`. -/
def canonArr : List JValue → Bool
  | [] => true
  | v :: r => canon v && canonArr r

/-- Object component of `canon`. -/
def canonKVs : List (Comp × JValue) → Bool
  | [] => true
  | (_, v) :: r => canon v && canonKVs r

end

/-! ### Resolution lemmas -/

@[simp] theorem resolve_nil (root : SchemaItem) : resolve root [] = .ok root := by
  rw [resolve, resolveItem]

theorem resolveItem_append (sch : SchemaItem) (p q : Path) :
    resolveItem sch (p ++ q) =
      match resolveItem sch p with
      | .ok m => resolveItem m q
      | .error e => .error e := by
  induction p generalizing sch with
  | nil => simp [resolveItem]
  | cons c p ih =>
    cases sch with
    | Collection inner =>
      simp only [List.cons_append, resolveItem]
      exact ih inner
    | Document fields =>
      simp only [List.cons_append, resolveItem]
      cases findField fields c with
      | some f => exact ih f
      | none => rfl
    | Scalar => simp [resolveItem]

theorem resolve_append_ok {root m : SchemaItem} {p q : Path}
    (h : resolve root (p ++ q) = .ok m) :
    ∃ m', resolve root p = .ok m' ∧ resolveItem m' q = .ok m := by
  rw [resolve, resolveItem_append] at h
  cases hr : resolveItem root p with
  | ok m' =>
    rw [hr] at h
    exact ⟨m', hr, h⟩
  | error e =>
    rw [hr] at h
    cases h

theorem resolve_snoc_doc {root : SchemaItem} {p : Path} {fields}
    {c : Comp} {f : SchemaItem} (h : resolve root p = .ok (.Document fields))
    (hf : findField fields c = some f) : resolve root (p ++ [c]) = .ok f := by
  rw [resolve] at h ⊢
  rw [resolveItem_append, h]
  simp [resolveItem, hf]

theorem resolve_snoc_coll {root : SchemaItem} {p : Path} {inner : SchemaItem}
    {c : Comp} (h : resolve root p = .ok (.Collection inner)) :
    resolve root (p ++ [c]) = .ok inner := by
  rw [resolve] at h ⊢
  rw [resolveItem_append, h]
  simp [resolveItem]

theorem resolve_dropLast_ok {root m : SchemaItem} {q : Path} {c : Comp}
    (h : resolve root (q ++ [c]) = .ok m) :
    ∃ m', resolve root q = .ok m' := by
  obtain ⟨m', hm', _⟩ := resolve_append_ok h
  exact ⟨m', hm'⟩

theorem schemaWFFields_find {fields : List (Comp × SchemaItem)} {k : Comp}
    {f : SchemaItem} (hwf : schemaWFFields fields = true)
    (hf : findField fields k = some f) : schemaWF f = true ∧ okComp k := by
  induction fields with
  | nil => simp [findField] at hf
  | cons kv r ih =>
    obtain ⟨k1, f1⟩ := kv
    rw [schemaWFFields] at hwf
    simp only [Bool.and_eq_true] at hwf
    obtain ⟨⟨hk1, hf1⟩, hr⟩ := hwf
    rw [findField] at hf
    by_cases h1 : k1 = k
    · rw [if_pos h1] at hf
      cases hf
      subst h1
      exact ⟨hf1, by simpa using hk1⟩
    · rw [if_neg h1] at hf
      exact ih hr hf

theorem schemaWF_resolveItem {sch m : SchemaItem} {p : Path}
    (hwf : schemaWF sch = true) (h : resolveItem sch p = .ok m) :
    schemaWF m = true := by
  induction p generalizing sch with
  | nil =>
    rw [resolveItem] at h
    cases h
    exact hwf
  | cons c p ih =>
    cases sch with
    | Collection inner =>
      rw [resolveItem] at h
      exact ih (by simpa [schemaWF] using hwf) h
    | Document fields =>
      rw [resolveItem] at h
      cases hf : findField fields c with
      | some f =>
        rw [hf] at h
        rw [schemaWF, Bool.and_eq_true] at hwf
        exact ih (schemaWFFields_find hwf.2 hf).1 h
      | none =>
        rw [hf] at h
        cases h
    | Scalar =>
      rw [resolveItem] at h
      cases h

/-! ### Subtree and disjointness lemmas for encoded keys -/

@[simp] theorem encode_ref_single (c : Comp) : encode_ref [c] = encComp c := by
  simp [encode_ref]

theorem enc_snoc (p : Path) (c : Comp) :
    encode_ref (p ++ [c]) = encode_ref p ++ encComp c := by
  rw [encode_ref_append, encode_ref_single]

theorem enc_prefix_append (p q : Path) : encode_ref p <+: encode_ref (p ++ q) := by
  rw [encode_ref_append]
  exact List.prefix_append _ _

theorem length_enc_snoc (p : Path) (c : Comp) :
    (encode_ref (p ++ [c])).length = (encode_ref p).length + 8 + c.length := by
  rw [enc_snoc]
  simp [encComp]
  omega

/-- A child key is never a byte-prefix of its parent's key. -/
theorem not_enc_snoc_prefix (p : Path) (c : Comp) (q : Path)
    (hq : q <+: p) : ¬ encode_ref (p ++ [c]) <+: encode_ref q := by
  intro h
  have h1 := h.length_le
  have h2 : (encode_ref q).length ≤ (encode_ref p).length := by
    obtain ⟨t, ht⟩ := hq
    subst ht
    rw [encode_ref_append]
    simp
  rw [length_enc_snoc] at h1
  omega

/-! ### Sorted association-list lemmas -/

/-- Key order on map entries. -/
def pairKeyLt {α : Type} (x y : Comp × α) : Prop := keyLt x.1 y.1 = true

theorem sortedKeysB_iff (l : List Comp) :
    sortedKeysB l = true ↔ l.Pairwise (fun a b => keyLt a b = true) := by
  induction l with
  | nil => simp [sortedKeysB]
  | cons a l ih =>
    cases l with
    | nil => simp [sortedKeysB]
    | cons b r =>
      rw [sortedKeysB, Bool.and_eq_true, ih]
      constructor
      · rintro ⟨hab, hp⟩
        refine List.Pairwise.cons ?_ hp
        intro x hx
        rcases List.mem_cons.mp hx with hx | hx
        · subst hx; exact hab
        · exact keyLt_trans hab (List.rel_of_pairwise_cons hp hx)
      · intro hp
        refine ⟨List.rel_of_pairwise_cons hp (by simp), hp.of_cons⟩

theorem mapFind_eq_none {α : Type} {m : List (Comp × α)} {k : Comp}
    (h : ∀ x ∈ m, x.1 ≠ k) : mapFind m k = none := by
  induction m with
  | nil => rfl
  | cons kv r ih =>
    rw [mapFind]
    rw [if_neg (h kv (by simp))]
    exact ih (fun x hx => h x (by simp [hx]))

theorem mem_mapInsert {α : Type} {m : List (Comp × α)} {k : Comp} {v : α}
    {x : Comp × α} (h : x ∈ mapInsert k v m) : x = (k, v) ∨ x ∈ m := by
  induction m with
  | nil => simpa [mapInsert] using h
  | cons kv r ih =>
    obtain ⟨k', v'⟩ := kv
    rw [mapInsert] at h
    split at h
    · rcases List.mem_cons.mp h with h | h
      · exact Or.inl h
      · exact Or.inr h
    · split at h
      · rcases List.mem_cons.mp h with h | h
        · exact Or.inl h
        · exact Or.inr (by simp [h])
      · rcases List.mem_cons.mp h with h | h
        · exact Or.inr (by simp [h])
        · rcases ih h with h | h
          · exact Or.inl h
          · exact Or.inr (by simp [h])

theorem mapFind_mapInsert_self {α : Type} (m : List (Comp × α)) (k : Comp) (v : α) :
    mapFind (mapInsert k v m) k = some v := by
  induction m with
  | nil => simp [mapInsert, mapFind]
  | cons kv r ih =>
    obtain ⟨k', v'⟩ := kv
    rw [mapInsert]
    split
    · simp [mapFind]
    · split
      · simp [mapFind]
      · rename_i h1 h2
        rw [mapFind, if_neg (fun h => h2 h.symm)]
        exact ih

theorem mapFind_mapInsert_ne {α : Type} (m : List (Comp × α)) {k k' : Comp} (v : α)
    (hne : k' ≠ k) : mapFind (mapInsert k v m) k' = mapFind m k' := by
  induction m with
  | nil =>
    simp only [mapInsert, mapFind]
    rw [if_neg (fun h : k = k' => hne h.symm)]
  | cons kv r ih =>
    obtain ⟨k1, v1⟩ := kv
    rw [mapInsert]
    split
    · rw [mapFind, if_neg (fun h => hne h.symm)]
    · split
      · rename_i h1 h2
        subst h2
        rw [mapFind, if_neg (fun h => hne h.symm), mapFind, if_neg (fun h => hne h.symm)]
      · rw [mapFind, mapFind]
        split
        · rfl
        · exact ih

theorem mapInsert_sorted {α : Type} {m : List (Comp × α)} {k : Comp} {v : α}
    (hs : m.Pairwise pairKeyLt) (hnm : ∀ x ∈ m, x.1 ≠ k) :
    (mapInsert k v m).Pairwise pairKeyLt := by
  induction m with
  | nil => simp [mapInsert]
  | cons kv r ih =>
    obtain ⟨k1, v1⟩ := kv
    rw [mapInsert]
    split
    · rename_i h1
      refine List.Pairwise.cons ?_ hs
      intro x hx
      rcases List.mem_cons.mp hx with hx | hx
      · subst hx; exact h1
      · exact keyLt_trans h1 (List.rel_of_pairwise_cons hs hx)
    · split
      · rename_i h1 h2
        exact absurd h2.symm (hnm (k1, v1) (by simp))
      · rename_i h1 h2
        have hlt : keyLt k1 k = true := by
          rcases keyLt_connex (a := k) (b := k1) (fun h => h2 h) with h | h
          · exact absurd h (by simp [h1])
          · exact h
        refine List.Pairwise.cons ?_ (ih hs.of_cons (fun x hx => hnm x (by simp [hx])))
        intro x hx
        rcases mem_mapInsert hx with hx | hx
        · subst hx; exact hlt
        · exact List.rel_of_pairwise_cons hs hx

theorem mapInsert_append_end {α : Type} {m : List (Comp × α)} {k : Comp} {v : α}
    (h : ∀ x ∈ m, keyLt x.1 k = true) : mapInsert k v m = m ++ [(k, v)] := by
  induction m with
  | nil => simp [mapInsert]
  | cons kv r ih =>
    obtain ⟨k1, v1⟩ := kv
    have h1 : keyLt k1 k = true := h (k1, v1) (by simp)
    rw [mapInsert]
    rw [if_neg (by simp [keyLt_asymm h1])]
    rw [if_neg (fun hh => by simp [hh, keyLt_irrefl] at h1)]
    rw [ih (fun x hx => h x (by simp [hx]))]
    simp

theorem sorted_map_ext {α : Type} : ∀ {m1 m2 : List (Comp × α)},
    m1.Pairwise pairKeyLt → m2.Pairwise pairKeyLt →
    (∀ k, mapFind m1 k = mapFind m2 k) → m1 = m2 := by
  intro m1
  induction m1 with
  | nil =>
    intro m2 _ hs2 hf
    cases m2 with
    | nil => rfl
    | cons kv r =>
      obtain ⟨k2, v2⟩ := kv
      have := hf k2
      rw [mapFind] at this
      simp [mapFind] at this
  | cons kv r1 ih =>
    intro m2 hs1 hs2 hf
    obtain ⟨k1, v1⟩ := kv
    cases m2 with
    | nil =>
      have := hf k1
      simp [mapFind] at this
    | cons kv2 r2 =>
      obtain ⟨k2, v2⟩ := kv2
      have hk : k1 = k2 := by
        by_contra hne
        rcases keyLt_connex hne with hlt | hlt
        · have h1 := hf k1
          rw [mapFind, if_pos rfl, mapFind, if_neg (fun h => hne h.symm)] at h1
          rw [mapFind_eq_none (fun x hx => ?_)] at h1
          · cases h1
          · have := List.rel_of_pairwise_cons hs2 hx
            have : keyLt k1 x.1 = true := keyLt_trans hlt this
            exact fun hh => absurd hh.symm (keyLt_ne this)
        · have h1 := hf k2
          rw [mapFind, if_neg (fun h : k1 = k2 => (keyLt_ne hlt) h.symm),
            mapFind, if_pos rfl] at h1
          rw [mapFind_eq_none (fun x hx => ?_)] at h1
          · cases h1
          · have hx2 := List.rel_of_pairwise_cons hs1 hx
            have : keyLt k2 x.1 = true := keyLt_trans hlt hx2
            exact fun hh => absurd hh.symm (keyLt_ne this)
      subst hk
      have hv : v1 = v2 := by
        have := hf k1
        rw [mapFind, if_pos rfl, mapFind, if_pos rfl] at this
        exact Option.some.inj this
      subst hv
      refine congrArg _ (ih hs1.of_cons hs2.of_cons (fun k => ?_))
      by_cases hk1 : k = k1
      · subst hk1
        rw [mapFind_eq_none, mapFind_eq_none]
        · intro x hx
          exact fun hh => absurd hh.symm (keyLt_ne (List.rel_of_pairwise_cons hs2 hx))
        · intro x hx
          exact fun hh => absurd hh.symm (keyLt_ne (List.rel_of_pairwise_cons hs1 hx))
      · have := hf k
        rwa [mapFind, if_neg (fun h => hk1 h.symm), mapFind,
          if_neg (fun h => hk1 h.symm)] at this

theorem mem_insSorted {c : Comp} : ∀ {ks : List Comp} {x : Comp},
    x ∈ insSorted c ks ↔ x = c ∨ x ∈ ks := by
  intro ks
  induction ks with
  | nil => simp [insSorted]
  | cons a r ih =>
    intro x
    rw [insSorted]
    split
    · simp
    · rw [List.mem_cons, ih]
      constructor
      · rintro (h | h | h)
        · exact Or.inr (by simp [h])
        · exact Or.inl h
        · exact Or.inr (by simp [h])
      · rintro (h | h)
        · exact Or.inr (Or.inl h)
        · rcases List.mem_cons.mp h with h | h
          · exact Or.inl h
          · exact Or.inr (Or.inr h)

theorem insSorted_append_end {c : Comp} : ∀ {ks : List Comp},
    (∀ x ∈ ks, keyLt x c = true) → insSorted c ks = ks ++ [c] := by
  intro ks
  induction ks with
  | nil => simp [insSorted]
  | cons a r ih =>
    intro h
    have h1 : keyLt a c = true := h a (by simp)
    rw [insSorted, if_neg (by simp [keyLt_asymm h1])]
    rw [ih (fun x hx => h x (by simp [hx]))]
    simp

/-! ### Reads depend only on the subtree below the path -/

theorem getColChildren_congr (root : SchemaItem) (p : Path) (inner : SchemaItem)
    (ks : List Comp) {s1 s2 : Store}
    (hIH : ∀ k ∈ ks, getTr root (p ++ [k]) inner s1 = getTr root (p ++ [k]) inner s2) :
    ∀ acc, getColChildren root p inner ks acc s1 = getColChildren root p inner ks acc s2 := by
  induction ks with
  | nil => intro acc; simp only [getColChildren]
  | cons k rest ih =>
    intro acc
    rw [getColChildren, getColChildren, hIH k (by simp)]
    cases hget : getTr root (p ++ [k]) inner s2 with
    | mk r tr =>
      cases r with
      | ok v =>
        simp only
        rw [ih (fun k' hk' => hIH k' (by simp [hk']))]
      | error e => rfl

theorem getDocChildren_congr (root : SchemaItem) (p : Path) :
    ∀ (fields : List (Comp × SchemaItem)) {s1 s2 : Store},
    (∀ f sch, (f, sch) ∈ fields →
      getTr root (p ++ [f]) sch s1 = getTr root (p ++ [f]) sch s2) →
    ∀ acc, getDocChildren root p fields acc s1 = getDocChildren root p fields acc s2 := by
  intro fields
  induction fields with
  | nil => intro s1 s2 _ acc; simp only [getDocChildren]
  | cons fv rest ih =>
    intro s1 s2 hIH acc
    obtain ⟨f, sch⟩ := fv
    rw [getDocChildren, getDocChildren, hIH f sch (by simp)]
    cases hget : getTr root (p ++ [f]) sch s2 with
    | mk r tr =>
      cases r with
      | ok v =>
        simp only
        rw [ih (fun f' sch' hm => hIH f' sch' (by simp [hm])) _]
      | error e => rfl

/-- `Server::get` reads only keys below the queried path: two stores that
agree on the subtree of `p` give the same result and trace. -/
theorem getTr_congr (root : SchemaItem) : ∀ (n : Nat) (sch : SchemaItem),
    sizeOf sch ≤ n → ∀ (p : Path) (s1 s2 : Store),
    (∀ k, encode_ref p <+: k → s1.get k = s2.get k) →
    getTr root p sch s1 = getTr root p sch s2 := by
  intro n
  induction n with
  | zero =>
    intro sch hsz
    cases sch <;> simp at hsz
  | succ n ih =>
    intro sch hsz p s1 s2 hs
    have h0 : s1.get (encode_ref p) = s2.get (encode_ref p) := hs _ List.prefix_rfl
    have hchild : ∀ (c : Comp) (k : List Nat), encode_ref (p ++ [c]) <+: k →
        s1.get k = s2.get k := by
      intro c k hk
      exact hs k ((enc_prefix_append p [c]).trans hk)
    cases sch with
    | Scalar => rw [getTr, getTr, h0]
    | Collection inner =>
      rw [getTr, getTr, h0]
      cases s2.get (encode_ref p) with
      | none => rfl
      | some bytes =>
        simp only
        cases decodeKeySet bytes with
        | none => rfl
        | some ks =>
          have hIH : ∀ k ∈ ks, getTr root (p ++ [k]) inner s1
              = getTr root (p ++ [k]) inner s2 := by
            intro k _
            exact ih inner (by simp at hsz; omega) (p ++ [k]) s1 s2 (hchild k)
          simp only [getColChildren_congr root p inner ks hIH []]
    | Document fields =>
      rw [getTr, getTr, h0]
      cases s2.get (encode_ref p) with
      | none => rfl
      | some bytes =>
        have hIH : ∀ f sch, (f, sch) ∈ fields →
            getTr root (p ++ [f]) sch s1 = getTr root (p ++ [f]) sch s2 := by
          intro f sch hm
          refine ih sch ?_ (p ++ [f]) s1 s2 (hchild f)
          have : sizeOf sch < sizeOf fields := by
            have := List.sizeOf_lt_of_mem hm
            simp at this
            omega
          simp at hsz
          omega
        simp only
        rw [getDocChildren_congr root p fields hIH []]

/-! ### Reads never mutate (trace lemmas) -/

theorem runOps_of_reads {tr : List StoreOp} (h : tr.all StoreOp.isRead = true)
    (s : Store) : runOps s tr = s := by
  induction tr with
  | nil => rfl
  | cons op r ih =>
    cases op with
    | read k =>
      rw [runOps]
      exact ih (by simpa [StoreOp.isRead] using h)
    | write k v => simp [StoreOp.isRead] at h
    | del k => simp [StoreOp.isRead] at h

theorem getColChildren_reads (root : SchemaItem) (p : Path) (inner : SchemaItem)
    (ks : List Comp) {s : Store}
    (hIH : ∀ k ∈ ks, ((getTr root (p ++ [k]) inner s).2).all StoreOp.isRead = true) :
    ∀ acc, ((getColChildren root p inner ks acc s).2).all StoreOp.isRead = true := by
  induction ks with
  | nil => intro acc; simp only [getColChildren, List.all_nil]
  | cons k rest ih =>
    intro acc
    rw [getColChildren]
    have h1 := hIH k (by simp)
    cases hget : getTr root (p ++ [k]) inner s with
    | mk r tr =>
      rw [hget] at h1
      cases r with
      | ok v =>
        simp only
        have h2 := ih (fun k' hk' => hIH k' (by simp [hk'])) (mapInsert k v acc)
        cases hrest : getColChildren root p inner rest (mapInsert k v acc) s with
        | mk r2 tr2 =>
          rw [hrest] at h2
          simp only [List.all_append, Bool.and_eq_true]
          exact ⟨h1, h2⟩
      | error e => simpa using h1

theorem getDocChildren_reads (root : SchemaItem) (p : Path) :
    ∀ (fields : List (Comp × SchemaItem)) {s : Store},
    (∀ f sch, (f, sch) ∈ fields →
      ((getTr root (p ++ [f]) sch s).2).all StoreOp.isRead = true) →
    ∀ acc, ((getDocChildren root p fields acc s).2).all StoreOp.isRead = true := by
  intro fields
  induction fields with
  | nil => intro s _ acc; simp only [getDocChildren, List.all_nil]
  | cons fv rest ih =>
    intro s hIH acc
    obtain ⟨f, sch⟩ := fv
    rw [getDocChildren]
    have h1 := hIH f sch (by simp)
    cases hget : getTr root (p ++ [f]) sch s with
    | mk r tr =>
      rw [hget] at h1
      cases r with
      | ok v =>
        simp only
        have h2 := ih (fun f' sch' hm => hIH f' sch' (by simp [hm])) (mapInsert f v acc)
        cases hrest : getDocChildren root p rest (mapInsert f v acc) s with
        | mk r2 tr2 =>
          rw [hrest] at h2
          simp only [List.all_append, Bool.and_eq_true]
          exact ⟨h1, h2⟩
      | error e => simpa using h1

theorem getTr_reads (root : SchemaItem) : ∀ (n : Nat) (sch : SchemaItem),
    sizeOf sch ≤ n → ∀ (p : Path) (s : Store),
    ((getTr root p sch s).2).all StoreOp.isRead = true := by
  intro n
  induction n with
  | zero =>
    intro sch hsz
    cases sch <;> simp at hsz
  | succ n ih =>
    intro sch hsz p s
    cases sch with
    | Scalar =>
      rw [getTr]
      cases s.get (encode_ref p) with
      | none => simp [StoreOp.isRead]
      | some bytes =>
        simp only
        split <;> simp [StoreOp.isRead]
    | Collection inner =>
      rw [getTr]
      cases s.get (encode_ref p) with
      | none => simp [StoreOp.isRead]
      | some bytes =>
        simp only
        cases decodeKeySet bytes with
        | none => simp [StoreOp.isRead]
        | some ks =>
          simp only
          have h2 := getColChildren_reads root p inner ks
            (fun k _ => ih inner (by simp at hsz; omega) (p ++ [k]) s) []
          cases hrest : getColChildren root p inner ks [] s with
          | mk r2 tr2 =>
            rw [hrest] at h2
            cases r2 <;> simp [StoreOp.isRead, h2]
    | Document fields =>
      rw [getTr]
      cases s.get (encode_ref p) with
      | none => simp [StoreOp.isRead]
      | some bytes =>
        simp only
        have h2 := getDocChildren_reads root p fields
          (fun f sch hm => ih sch (by
            have := List.sizeOf_lt_of_mem hm
            simp at this hsz
            omega) (p ++ [f]) s) []
        cases hrest : getDocChildren root p fields [] s with
        | mk r2 tr2 =>
          rw [hrest] at h2
          cases r2 <;> simp [StoreOp.isRead, h2]

/-! ### Small path utilities -/

@[simp] theorem dropLast_snoc (q : Path) (c : Comp) : (q ++ [c]).dropLast = q := by
  simp

@[simp] theorem getLastD_snoc (q : Path) (c : Comp) (d : Comp) :
    (q ++ [c]).getLastD d = c := by
  simp [List.getLastD_eq_getLast?]

theorem length_encode_snoc_gt (q : Path) (c : Comp) :
    (encode_ref q).length < (encode_ref (q ++ [c])).length := by
  rw [enc_snoc]
  simp

theorem enc_snoc_ne (q : Path) (c : Comp) : encode_ref (q ++ [c]) ≠ encode_ref q := by
  intro h
  have := congrArg List.length h
  have h2 := length_encode_snoc_gt q c
  omega

/-! ### Elimination lemmas for the validity predicates -/

theorem validChildren_mem {inner : SchemaItem} {kvs : List (Comp × JValue)}
    (h : validChildren inner kvs = true) {k : Comp} {v : JValue}
    (hm : (k, v) ∈ kvs) : okComp k ∧ valid inner v = true := by
  induction kvs with
  | nil => cases hm
  | cons kv rest ih =>
    obtain ⟨k1, v1⟩ := kv
    rw [validChildren, Bool.and_eq_true, Bool.and_eq_true] at h
    rcases List.mem_cons.mp hm with hm | hm
    · cases hm
      exact ⟨by simpa using h.1.1, h.1.2⟩
    · exact ih h.2 hm

theorem validDocFields_mem {fields : List (Comp × SchemaItem)}
    {kvs : List (Comp × JValue)} (h : validDocFields fields kvs = true)
    {k : Comp} {v : JValue} (hm : (k, v) ∈ kvs) :
    ∃ f, findField fields k = some f ∧ okComp k ∧ valid f v = true := by
  induction kvs with
  | nil => cases hm
  | cons kv rest ih =>
    obtain ⟨k1, v1⟩ := kv
    rw [validDocFields, Bool.and_eq_true] at h
    obtain ⟨h1, h2⟩ := h
    rcases List.mem_cons.mp hm with hm | hm
    · cases hm
      cases hf : findField fields k with
      | some f =>
        rw [hf] at h1
        simp only [Bool.and_eq_true] at h1
        exact ⟨f, rfl, by simpa using h1.1, h1.2⟩
      | none =>
        rw [hf] at h1
        cases h1
    · exact ih h2 hm

theorem canonKVs_mem {kvs : List (Comp × JValue)} (h : canonKVs kvs = true)
    {k : Comp} {v : JValue} (hm : (k, v) ∈ kvs) : canon v = true := by
  induction kvs with
  | nil => cases hm
  | cons kv rest ih =>
    obtain ⟨k1, v1⟩ := kv
    rw [canonKVs, Bool.and_eq_true] at h
    rcases List.mem_cons.mp hm with hm | hm
    · cases hm
      exact h.1
    · exact ih h.2 hm

theorem canon_obj_elim {kvs : List (Comp × JValue)} (h : canon (.obj kvs) = true) :
    kvs.length < 2 ^ 64 ∧
    (kvs.map Prod.fst).Pairwise (fun a b => keyLt a b = true) ∧
    canonKVs kvs = true := by
  rw [canon, Bool.and_eq_true, Bool.and_eq_true] at h
  exact ⟨by simpa using h.1.1, (sortedKeysB_iff _).mp h.1.2, h.2⟩

theorem valid_document_elim {fields : List (Comp × SchemaItem)}
    {kvs : List (Comp × JValue)} (h : valid (.Document fields) (.obj kvs) = true) :
    kvs.all (fun kv => (findField fields kv.1).isSome) = true ∧
    fields.all (fun f => kvs.any (fun kv => kv.1 = f.1)) = true ∧
    validDocFields fields kvs = true := by
  rw [valid, Bool.and_eq_true, Bool.and_eq_true] at h
  exact ⟨h.1.1, h.1.2, h.2⟩

/-! ### The collection-index write at the tail of `tx_insert` -/

theorem encodeKeySet_inj {ks ks2 : List Comp} (h : encodeKeySet ks = encodeKeySet ks2)
    (hok : ∀ c ∈ ks, okComp c) (hlen : ks.length < 2 ^ 64)
    (hok2 : ∀ c ∈ ks2, okComp c) (hlen2 : ks2.length < 2 ^ 64) : ks = ks2 := by
  have h1 := decodeKeySet_encodeKeySet ks hlen hok
  have h2 := decodeKeySet_encodeKeySet ks2 hlen2 hok2
  rw [h] at h1
  exact Option.some.inj (h1.symm.trans h2)

/-- Behaviour of `insertParentIndex` under a well-formed parent set. -/
theorem insertParentIndex_spec (root : SchemaItem) (p : Path) (s : Store)
    (hres : 1 < p.length → ∃ m, resolve root p.dropLast = .ok m)
    (hpar : ∀ inner, 1 < p.length →
      resolve root p.dropLast = .ok (.Collection inner) →
      s.get (encode_ref p.dropLast) = none ∨
      ∃ ks, s.get (encode_ref p.dropLast) = some (encodeKeySet ks) ∧
        (∀ c ∈ ks, okComp c) ∧ ks.length < 2 ^ 64) :
    ∃ s2, insertParentIndex root p s = .ok s2 ∧
      (∀ k, k ≠ encode_ref p.dropLast → s2.get k = s.get k) ∧
      (p.length ≤ 1 → s2 = s) ∧
      (∀ m, 1 < p.length → resolve root p.dropLast = .ok m →
        (∀ i, m ≠ .Collection i) → s2 = s) ∧
      (∀ inner, 1 < p.length → resolve root p.dropLast = .ok (.Collection inner) →
        ((s.get (encode_ref p.dropLast) = none →
          s2.get (encode_ref p.dropLast) = some (encodeKeySet [p.getLastD []])) ∧
         (∀ ks, s.get (encode_ref p.dropLast) = some (encodeKeySet ks) →
          (∀ c ∈ ks, okComp c) → ks.length < 2 ^ 64 →
          s2.get (encode_ref p.dropLast)
            = some (encodeKeySet (setAdd ks (p.getLastD [])))))) := by
  by_cases hlen : 1 < p.length
  · obtain ⟨m, hm⟩ := hres hlen
    cases m with
    | Collection inner =>
      rcases hpar inner hlen hm with hget | ⟨ks, hget, hok, hkslen⟩
      · refine ⟨s.insert (encode_ref p.dropLast)
          (encodeKeySet (insSorted (p.getLastD []) [])), ?_, ?_, ?_, ?_, ?_⟩
        · rw [insertParentIndex, if_pos hlen, hm, hget]
        · intro k hk
          rw [Store.get_insert, if_neg (fun h : encode_ref p.dropLast = k => hk h.symm)]
        · intro h
          omega
        · intro m2 _ hm2 hne
          rw [hm] at hm2
          cases hm2
          exact absurd rfl (hne inner)
        · intro inner2 _ _
          constructor
          · intro _
            rw [Store.get_insert, if_pos rfl]
            rfl
          · intro ks2 hks2
            rw [hget] at hks2
            cases hks2
      · by_cases hmem : p.getLastD [] ∈ ks
        · refine ⟨s, ?_, fun k _ => rfl, fun _ => rfl, fun m2 _ hm2 hne => rfl, ?_⟩
          · rw [insertParentIndex, if_pos hlen, hm, hget]
            simp only
            rw [decodeKeySet_encodeKeySet ks hkslen hok]
            simp only
            rw [if_pos hmem]
          · intro inner2 _ _
            constructor
            · intro hnone
              rw [hget] at hnone
              cases hnone
            · intro ks2 hks2 hok2 hkslen2
              rw [hget] at hks2
              have hkk : ks = ks2 :=
                encodeKeySet_inj (Option.some.inj hks2) hok hkslen hok2 hkslen2
              subst hkk
              rw [hget, setAdd, if_pos hmem]
        · refine ⟨s.insert (encode_ref p.dropLast)
            (encodeKeySet (insSorted (p.getLastD []) ks)), ?_, ?_, ?_, ?_, ?_⟩
          · rw [insertParentIndex, if_pos hlen, hm, hget]
            simp only
            rw [decodeKeySet_encodeKeySet ks hkslen hok]
            simp only
            rw [if_neg hmem]
          · intro k hk
            rw [Store.get_insert, if_neg (fun h : encode_ref p.dropLast = k => hk h.symm)]
          · intro h
            omega
          · intro m2 _ hm2 hne
            rw [hm] at hm2
            cases hm2
            exact absurd rfl (hne inner)
          · intro inner2 _ _
            constructor
            · intro hnone
              rw [hget] at hnone
              cases hnone
            · intro ks2 hks2 hok2 hkslen2
              rw [hget] at hks2
              have hkk : ks = ks2 :=
                encodeKeySet_inj (Option.some.inj hks2) hok hkslen hok2 hkslen2
              subst hkk
              rw [setAdd, if_neg hmem, Store.get_insert, if_pos rfl]
    | Document fields =>
      refine ⟨s, ?_, fun k _ => rfl, fun _ => rfl, fun m2 _ _ _ => rfl, ?_⟩
      · rw [insertParentIndex, if_pos hlen, hm]
      · intro inner2 _ hm2
        rw [hm] at hm2
        cases hm2
    | Scalar =>
      refine ⟨s, ?_, fun k _ => rfl, fun _ => rfl, fun m2 _ _ _ => rfl, ?_⟩
      · rw [insertParentIndex, if_pos hlen, hm]
      · intro inner2 _ hm2
        rw [hm] at hm2
        cases hm2
  · refine ⟨s, ?_, fun k _ => rfl, fun _ => rfl, fun m2 hl _ _ => absurd hl hlen, ?_⟩
    · rw [insertParentIndex, if_neg hlen]
    · intro inner2 hl _
      exact absurd hl hlen

theorem resolve_dropLast_of_resolve {root m : SchemaItem} {p : Path}
    (h : resolve root p = .ok m) (hlen : 1 < p.length) :
    ∃ m2, resolve root p.dropLast = .ok m2 := by
  rcases List.eq_nil_or_concat p with hp | ⟨q, c, hp⟩
  · subst hp
    simp at hlen
  · rw [List.concat_eq_append] at hp
    subst hp
    rw [dropLast_snoc]
    exact resolve_dropLast_ok h

theorem enc_dropLast_ne {p : Path} (hp : p ≠ []) :
    encode_ref p.dropLast ≠ encode_ref p := by
  rcases List.eq_nil_or_concat p with h | ⟨q, c, h⟩
  · exact absurd h hp
  · rw [List.concat_eq_append] at h
    subst h
    rw [dropLast_snoc]
    exact fun hh => (enc_snoc_ne q c) hh.symm

theorem mapFind_eq_of_mem {α : Type} {kvs : List (Comp × α)}
    (hs : kvs.Pairwise pairKeyLt) {k : Comp} {v : α} (hm : (k, v) ∈ kvs) :
    mapFind kvs k = some v := by
  induction kvs with
  | nil => cases hm
  | cons kv r ih =>
    obtain ⟨k1, v1⟩ := kv
    rcases List.mem_cons.mp hm with h | h
    · cases h
      rw [mapFind, if_pos rfl]
    · rw [mapFind]
      have hlt : keyLt k1 k = true := List.rel_of_pairwise_cons hs h
      rw [if_neg (keyLt_ne hlt)]
      exact ih hs.of_cons h

theorem findField_eq_of_mem {fields : List (Comp × SchemaItem)}
    (hnd : (fields.map Prod.fst).Nodup) {k : Comp} {f : SchemaItem}
    (hm : (k, f) ∈ fields) : findField fields k = some f := by
  induction fields with
  | nil => cases hm
  | cons kv r ih =>
    obtain ⟨k1, f1⟩ := kv
    simp only [List.map_cons, List.nodup_cons] at hnd
    rcases List.mem_cons.mp hm with h | h
    · cases h
      rw [findField, if_pos rfl]
    · rw [findField]
      have hk : k1 ≠ k := by
        intro hk
        subst hk
        exact hnd.1 (List.mem_map.mpr ⟨(k1, f), h, rfl⟩)
      rw [if_neg hk]
      exact ih hnd.2 h

theorem findField_isSome_mem {fields : List (Comp × SchemaItem)} {k : Comp}
    (h : (findField fields k).isSome = true) : k ∈ fields.map Prod.fst := by
  induction fields with
  | nil => simp [findField] at h
  | cons kv r ih =>
    obtain ⟨k1, f1⟩ := kv
    rw [findField] at h
    by_cases h1 : k1 = k
    · simp [h1]
    · rw [if_neg h1] at h
      simp [ih h]

/-! ### Assembling the result maps of a read -/

theorem getColChildren_assemble (root : SchemaItem) (p : Path) (inner : SchemaItem)
    (s : Store) :
    ∀ (kvs : List (Comp × JValue)),
    kvs.Pairwise pairKeyLt →
    (∀ kv ∈ kvs, (getTr root (p ++ [kv.1]) inner s).1 = .ok kv.2) →
    ∀ (acc : List (Comp × JValue)),
    (∀ a ∈ acc, ∀ kv ∈ kvs, keyLt a.1 kv.1 = true) →
    ∃ tr, getColChildren root p inner (kvs.map Prod.fst) acc s = (.ok (acc ++ kvs), tr) := by
  intro kvs
  induction kvs with
  | nil =>
    intro _ _ acc _
    exact ⟨[], by simp [getColChildren]⟩
  | cons kv rest ih =>
    intro hs hreads acc hacc
    obtain ⟨k, v⟩ := kv
    simp only [List.map_cons]
    rw [getColChildren]
    have hr := hreads (k, v) (by simp)
    cases hget : getTr root (p ++ [k]) inner s with
    | mk r tr1 =>
      rw [hget] at hr
      simp only at hr
      cases r with
      | error e => cases hr
      | ok v2 =>
        cases hr
        simp only
        have hinsert : mapInsert k v acc = acc ++ [(k, v)] :=
          mapInsert_append_end (fun a ha => hacc a ha (k, v) (by simp))
        have hacc2 : ∀ a ∈ acc ++ [(k, v)], ∀ kv2 ∈ rest, keyLt a.1 kv2.1 = true := by
          intro a ha kv2 hkv2
          rcases List.mem_append.mp ha with ha | ha
          · exact hacc a ha kv2 (by simp [hkv2])
          · rcases List.mem_singleton.mp ha with rfl
            exact List.rel_of_pairwise_cons hs hkv2
        obtain ⟨tr2, htr2⟩ := ih hs.of_cons
          (fun kv2 hkv2 => hreads kv2 (by simp [hkv2])) (acc ++ [(k, v)]) hacc2
        rw [hinsert, htr2]
        exact ⟨tr1 ++ tr2, by simp⟩

theorem getDocChildren_assemble (root : SchemaItem) (p : Path) (s : Store) :
    ∀ (fields : List (Comp × SchemaItem)),
    (fields.map Prod.fst).Nodup →
    (∀ fk fsch, (fk, fsch) ∈ fields → ∃ v, (getTr root (p ++ [fk]) fsch s).1 = .ok v) →
    ∀ (acc : List (Comp × JValue)),
    ∃ M tr, getDocChildren root p fields acc s = (.ok M, tr) ∧
      (∀ x, x ∉ fields.map Prod.fst → mapFind M x = mapFind acc x) ∧
      (∀ fk fsch, (fk, fsch) ∈ fields → ∀ v,
        (getTr root (p ++ [fk]) fsch s).1 = .ok v → mapFind M fk = some v) ∧
      (acc.Pairwise pairKeyLt → (∀ a ∈ acc, a.1 ∉ fields.map Prod.fst) →
        M.Pairwise pairKeyLt) := by
  intro fields
  induction fields with
  | nil =>
    intro _ _ acc
    refine ⟨acc, [], ?_, fun x _ => rfl, ?_, fun hs _ => hs⟩
    · simp [getDocChildren]
    · intro fk fsch hm
      cases hm
  | cons fv rest ih =>
    intro hnd hvals acc
    obtain ⟨fk, fsch⟩ := fv
    obtain ⟨v, hv⟩ := hvals fk fsch (by simp)
    have hndr : (rest.map Prod.fst).Nodup := by
      simp only [List.map_cons, List.nodup_cons] at hnd
      exact hnd.2
    have hfknr : fk ∉ rest.map Prod.fst := by
      simp only [List.map_cons, List.nodup_cons] at hnd
      exact hnd.1
    rw [getDocChildren]
    cases hget : getTr root (p ++ [fk]) fsch s with
    | mk r tr1 =>
      rw [hget] at hv
      simp only at hv
      cases r with
      | error e => cases hv
      | ok v2 =>
        cases hv
        simp only
        obtain ⟨M, tr2, heq, hout, hin, hsort⟩ :=
          ih hndr (fun fk2 fsch2 hm2 => hvals fk2 fsch2 (by simp [hm2]))
            (mapInsert fk v acc)
        rw [heq]
        refine ⟨M, tr1 ++ tr2, rfl, ?_, ?_, ?_⟩
        · intro x hx
          simp only [List.map_cons, List.mem_cons, not_or] at hx
          rw [hout x hx.2, mapFind_mapInsert_ne _ _ hx.1]
        · intro fk2 fsch2 hm2 v3 hv3
          rcases List.mem_cons.mp hm2 with hm2 | hm2
          · rw [Prod.mk.injEq] at hm2
            obtain ⟨h1, h2⟩ := hm2
            subst h1
            subst h2
            rw [hget] at hv3
            simp only at hv3
            have h3 := Except.ok.inj hv3
            subst h3
            rw [hout fk2 hfknr, mapFind_mapInsert_self]
          · exact hin fk2 fsch2 hm2 v3 hv3
        · intro hs hdisj
          refine hsort (mapInsert_sorted hs ?_) ?_
          · intro a ha hak
            exact (hdisj a ha) (by simp [hak])
          · intro a ha
            rcases mem_mapInsert ha with ha | ha
            · subst ha
              exact hfknr
            · intro hmem
              exact (hdisj a ha) (by simp [hmem])
theorem sibling_subtree_disjoint {p : Path} {c d : Comp} {k : List Nat}
    (hne : c ≠ d) (hc : c.length < 2 ^ 64) (hd : d.length < 2 ^ 64)
    (h1 : encode_ref (p ++ [c]) <+: k) (h2 : encode_ref (p ++ [d]) <+: k) :
    False := by
  have h3 := List.prefix_or_prefix_of_prefix h1 h2
  have key : ∀ (a b : Comp), a.length < 2 ^ 64 → b.length < 2 ^ 64 →
      encode_ref (p ++ [a]) <+: encode_ref (p ++ [b]) → a = b := by
    intro a b ha hb hpre
    rw [enc_snoc, enc_snoc, List.prefix_append_right_inj] at hpre
    have := encComp_append_prefix (x := []) (y := []) ha hb
      (by simpa [List.append_nil] using hpre)
    exact this.1
  rcases h3 with h3 | h3
  · exact hne (key c d hc hd h3)
  · exact hne (key d c hd hc h3).symm

/-! ### The main insert specification -/

/-- No physical key below `p` (including `E(p)` itself) is present. -/
def subtreeEmpty (s : Store) (p : Path) : Prop :=
  ∀ k, encode_ref p <+: k → s.get k = none

/-- The membership set stored at the parent's key, if the parent is a
`Collection`, is absent or well-formed. -/
def parentOk (root : SchemaItem) (s : Store) (p : Path) : Prop :=
  ∀ inner, 1 < p.length → resolve root p.dropLast = .ok (.Collection inner) →
    s.get (encode_ref p.dropLast) = none ∨
    ∃ ks, s.get (encode_ref p.dropLast) = some (encodeKeySet ks) ∧
      (∀ c ∈ ks, okComp c) ∧ ks.length < 2 ^ 64

/-- An insert touches only keys below its path, plus possibly the parent's
index key. -/
def insertFrame (p : Path) (s s2 : Store) : Prop :=
  ∀ k, ¬ encode_ref p <+: k → k ≠ encode_ref p.dropLast → s2.get k = s.get k

/-- What an insert does to the parent's index key. -/
def insertIdx (root : SchemaItem) (p : Path) (s s2 : Store) : Prop :=
  (p.length = 1 → s2.get (encode_ref p.dropLast) = s.get (encode_ref p.dropLast)) ∧
  (∀ m, 1 < p.length → resolve root p.dropLast = .ok m →
    (∀ i, m ≠ .Collection i) →
    s2.get (encode_ref p.dropLast) = s.get (encode_ref p.dropLast)) ∧
  (∀ inner, 1 < p.length → resolve root p.dropLast = .ok (.Collection inner) →
    ((s.get (encode_ref p.dropLast) = none →
      s2.get (encode_ref p.dropLast) = some (encodeKeySet [p.getLastD []])) ∧
     (∀ ks, s.get (encode_ref p.dropLast) = some (encodeKeySet ks) →
      (∀ c ∈ ks, okComp c) → ks.length < 2 ^ 64 →
      s2.get (encode_ref p.dropLast)
        = some (encodeKeySet (setAdd ks (p.getLastD []))))))

/-- The loop of `tx_insert`'s collection case, tracking the growth of the
membership set at `E(p)` across the children. -/
theorem insertChildren_spec (root : SchemaItem) (p : Path) (inner : SchemaItem)
    (IH : ∀ (q : Path) (v : JValue) (s : Store),
      resolve root q = .ok inner → valid inner v = true → canon v = true →
      (∀ c ∈ q, okComp c) → subtreeEmpty s q → parentOk root s q →
      ∃ s2, tx_insert root q inner v s = .ok s2 ∧ insertFrame q s s2 ∧
        insertIdx root q s s2 ∧ (getTr root q inner s2).1 = .ok v)
    (hp : p ≠ []) (hokp : ∀ c ∈ p, okComp c)
    (hres : resolve root p = .ok (.Collection inner)) :
    ∀ (kvs : List (Comp × JValue)) (ksDone : List Comp) (s : Store),
    validChildren inner kvs = true → canonKVs kvs = true →
    (kvs.map Prod.fst).Pairwise (fun a b => keyLt a b = true) →
    (∀ a ∈ ksDone, ∀ b ∈ kvs.map Prod.fst, keyLt a b = true) →
    (∀ c ∈ ksDone, okComp c) →
    ksDone.length + kvs.length < 2 ^ 64 →
    (∀ kv ∈ kvs, subtreeEmpty s (p ++ [kv.1])) →
    (ksDone = [] ∧ s.get (encode_ref p) = none ∨
     ksDone ≠ [] ∧ s.get (encode_ref p) = some (encodeKeySet ksDone)) →
    ∃ s2, insertChildren root p inner kvs s = .ok s2 ∧
      (∀ k, (∀ kv ∈ kvs, ¬ encode_ref (p ++ [kv.1]) <+: k) → k ≠ encode_ref p →
        s2.get k = s.get k) ∧
      (kvs = [] → s2.get (encode_ref p) = s.get (encode_ref p)) ∧
      (kvs ≠ [] → s2.get (encode_ref p)
        = some (encodeKeySet (ksDone ++ kvs.map Prod.fst))) ∧
      (∀ kv ∈ kvs, (getTr root (p ++ [kv.1]) inner s2).1 = .ok kv.2) := by
  intro kvs
  induction kvs with
  | nil =>
    intro ksDone s _ _ _ _ _ _ _ _
    refine ⟨s, ?_, fun k _ _ => rfl, fun _ => rfl, fun h => absurd rfl h, ?_⟩
    · rw [insertChildren]
    · intro kv hm
      cases hm
  | cons kv0 rest ih =>
    intro ksDone s hvc hckv hpw hklt hkok hbud hsub hpv
    obtain ⟨k, v⟩ := kv0
    rw [List.map_cons] at hpw
    have hkokc : okComp k ∧ valid inner v = true :=
      validChildren_mem hvc (List.mem_cons_self (k, v) rest)
    have hcanv : canon v = true := canonKVs_mem hckv (List.mem_cons_self (k, v) rest)
    have hlenp1 : 1 < (p ++ [k]).length := by
      have hpl : 0 < p.length := List.length_pos.mpr hp
      simp only [List.length_append, List.length_singleton]
      omega
    -- run the head child
    obtain ⟨s1, hins1, hframe1, hidx1, hget1⟩ :=
      IH (p ++ [k]) v s (resolve_snoc_coll hres) hkokc.2 hcanv
        (by
          intro c hc
          rcases List.mem_append.mp hc with hc | hc
          · exact hokp c hc
          · rcases List.mem_singleton.mp hc with rfl
            exact hkokc.1)
        (hsub (k, v) (by simp))
        (by
          intro inner2 _ hres2
          rw [dropLast_snoc] at hres2 ⊢
          rw [hres] at hres2
          cases hres2
          rcases hpv with ⟨_, hget⟩ | ⟨_, hget⟩
          · exact Or.inl hget
          · exact Or.inr ⟨ksDone, hget, hkok, by simp at hbud; omega⟩)
    -- the head child registered itself in the set at E(p)
    have hidx3 := hidx1.2.2 inner hlenp1 (by rw [dropLast_snoc]; exact hres)
    have hsetp : s1.get (encode_ref p) = some (encodeKeySet (ksDone ++ [k])) := by
      rcases hpv with ⟨hd, hget⟩ | ⟨hd, hget⟩
      · subst hd
        have hw := hidx3.1 (by rw [dropLast_snoc]; exact hget)
        rw [dropLast_snoc, getLastD_snoc] at hw
        simpa using hw
      · have hw := hidx3.2 ksDone (by rw [dropLast_snoc]; exact hget) hkok
          (by simp at hbud; omega)
        rw [dropLast_snoc, getLastD_snoc] at hw
        have hknotin : k ∉ ksDone := by
          intro hmem
          exact (keyLt_ne (hklt k hmem k (by simp))) rfl
        rw [setAdd, if_neg hknotin,
          insSorted_append_end (fun x hx => hklt x hx k (by simp))] at hw
        exact hw
    -- frame of the head child, stated for sibling subtrees
    have hchildframe : ∀ x, ¬ encode_ref (p ++ [k]) <+: x → x ≠ encode_ref p →
        s1.get x = s.get x := by
      intro x hx1 hx2
      exact hframe1 x hx1 (by rw [dropLast_snoc]; exact hx2)
    have hsubrest : ∀ kv ∈ rest, subtreeEmpty s1 (p ++ [kv.1]) := by
      intro kv hm x hx
      have hkne : k ≠ kv.1 :=
        keyLt_ne (List.rel_of_pairwise_cons hpw (List.mem_map.mpr ⟨kv, hm, rfl⟩))
      have hnk : ¬ encode_ref (p ++ [k]) <+: x := by
        intro hk2
        exact sibling_subtree_disjoint hkne hkokc.1.1
          (validChildren_mem hvc (List.mem_cons.mpr (Or.inr hm))).1.1 hk2 hx
      have hxnp : x ≠ encode_ref p := by
        intro hxe
        subst hxe
        exact not_enc_snoc_prefix p kv.1 p List.prefix_rfl hx
      rw [hchildframe x hnk hxnp]
      exact hsub kv (by simp [hm]) x hx
    -- run the rest of the children
    obtain ⟨s2, hins2, hframe2, hempty2, hnonempty2, hget2⟩ :=
      ih (ksDone ++ [k]) s1 (by
          rw [validChildren, Bool.and_eq_true, Bool.and_eq_true] at hvc
          exact hvc.2)
        (by
          rw [canonKVs, Bool.and_eq_true] at hckv
          exact hckv.2)
        hpw.of_cons
        (by
          intro a ha b hb
          rcases List.mem_append.mp ha with ha | ha
          · exact hklt a ha b (by simp [hb])
          · rcases List.mem_singleton.mp ha with rfl
            exact List.rel_of_pairwise_cons hpw hb)
        (by
          intro c hc
          rcases List.mem_append.mp hc with hc | hc
          · exact hkok c hc
          · rcases List.mem_singleton.mp hc with rfl
            exact hkokc.1)
        (by simp at hbud ⊢; omega)
        hsubrest
        (Or.inr ⟨by simp, hsetp⟩)
    refine ⟨s2, ?_, ?_, ?_, ?_, ?_⟩
    · rw [insertChildren, hins1]
      exact hins2
    · intro x hx hxp
      rw [hframe2 x (fun kv hm => hx kv (by simp [hm])) hxp]
      exact hchildframe x (hx (k, v) (by simp)) hxp
    · intro h
      simp at h
    · intro _
      by_cases hre : rest = []
      · subst hre
        rw [hempty2 rfl, hsetp]
        simp
      · rw [hnonempty2 hre]
        simp
    · intro kv hm
      rcases List.mem_cons.mp hm with rfl | hm2
      · have hagree : ∀ x, encode_ref (p ++ [k]) <+: x → s2.get x = s1.get x := by
          intro x hx
          refine hframe2 x ?_ ?_
          · intro kv2 hm2 hpre
            have hkne : k ≠ kv2.1 :=
              keyLt_ne (List.rel_of_pairwise_cons hpw
                (List.mem_map.mpr ⟨kv2, hm2, rfl⟩))
            exact sibling_subtree_disjoint (Ne.symm hkne)
              (validChildren_mem hvc (List.mem_cons.mpr (Or.inr hm2))).1.1
              hkokc.1.1 hpre hx
          · intro hxe
            subst hxe
            exact not_enc_snoc_prefix p k p List.prefix_rfl hx
        have hcongr := getTr_congr root (sizeOf inner) inner le_rfl (p ++ [k])
          s2 s1 hagree
        show (getTr root (p ++ [k]) inner s2).1 = Except.ok v
        rw [hcongr]
        exact hget1
      · exact hget2 kv hm2

/-- The loop of `tx_insert`'s document case: each declared field's value is
inserted below the document path, touching only the child subtrees. -/
theorem insertDocChildren_spec (root : SchemaItem) (p : Path)
    (fields : List (Comp × SchemaItem))
    (IH : ∀ (f : SchemaItem), sizeOf f < sizeOf (SchemaItem.Document fields) →
      ∀ (q : Path) (v : JValue) (s : Store),
      resolve root q = .ok f → valid f v = true → canon v = true →
      (∀ c ∈ q, okComp c) → subtreeEmpty s q → parentOk root s q →
      ∃ s2, tx_insert root q f v s = .ok s2 ∧ insertFrame q s s2 ∧
        insertIdx root q s s2 ∧ (getTr root q f s2).1 = .ok v)
    (hokp : ∀ c ∈ p, okComp c)
    (hres : resolve root p = .ok (.Document fields)) :
    ∀ (kvs : List (Comp × JValue)) (s : Store),
    validDocFields fields kvs = true → canonKVs kvs = true →
    (kvs.map Prod.fst).Pairwise (fun a b => keyLt a b = true) →
    (∀ kv ∈ kvs, subtreeEmpty s (p ++ [kv.1])) →
    ∃ s2, insertDocChildren root p fields kvs s = .ok s2 ∧
      (∀ x, (∀ kv ∈ kvs, ¬ encode_ref (p ++ [kv.1]) <+: x) → s2.get x = s.get x) ∧
      (∀ kv ∈ kvs, ∀ f, findField fields kv.1 = some f →
        (getTr root (p ++ [kv.1]) f s2).1 = .ok kv.2) := by
  intro kvs
  induction kvs with
  | nil =>
    intro s _ _ _ _
    refine ⟨s, ?_, fun x _ => rfl, ?_⟩
    · rw [insertDocChildren]
    · intro kv hm
      cases hm
  | cons kv0 rest ih =>
    intro s hvdf hckv hpw hsub
    obtain ⟨k, v⟩ := kv0
    rw [List.map_cons] at hpw
    obtain ⟨f, hf, hokk, hvalv⟩ :=
      validDocFields_mem hvdf (List.mem_cons_self (k, v) rest)
    have hcanv : canon v = true := canonKVs_mem hckv (List.mem_cons_self (k, v) rest)
    -- run the head field
    obtain ⟨s1, hins1, hframe1, hidx1, hget1⟩ :=
      IH f (by have := sizeOf_findField hf; simp only [SchemaItem.Document.sizeOf_spec]; omega)
        (p ++ [k]) v s (resolve_snoc_doc hres hf) hvalv hcanv
        (by
          intro c hc
          rcases List.mem_append.mp hc with hc | hc
          · exact hokp c hc
          · rcases List.mem_singleton.mp hc with rfl
            exact hokk)
        (hsub (k, v) (List.mem_cons_self (k, v) rest))
        (by
          intro inner2 _ hres2
          rw [dropLast_snoc] at hres2
          rw [hres] at hres2
          simp at hres2)
    -- the parent's own key is untouched by the child insert
    have hEp : s1.get (encode_ref p) = s.get (encode_ref p) := by
      by_cases hpn : p = []
      · have hw := hidx1.1 (by simp [hpn])
        rw [dropLast_snoc] at hw
        exact hw
      · have hlenp1 : 1 < (p ++ [k]).length := by
          have hpl : 0 < p.length := List.length_pos.mpr hpn
          simp only [List.length_append, List.length_singleton]
          omega
        have hw := hidx1.2.1 (.Document fields) hlenp1
          (by rw [dropLast_snoc]; exact hres) (fun i => by simp)
        rw [dropLast_snoc] at hw
        exact hw
    have hchildframe : ∀ x, ¬ encode_ref (p ++ [k]) <+: x →
        s1.get x = s.get x := by
      intro x hx1
      by_cases hxe : x = encode_ref p
      · subst hxe
        exact hEp
      · exact hframe1 x hx1 (by rw [dropLast_snoc]; exact hxe)
    have hsubrest : ∀ kv ∈ rest, subtreeEmpty s1 (p ++ [kv.1]) := by
      intro kv hm x hx
      have hkne : k ≠ kv.1 :=
        keyLt_ne (List.rel_of_pairwise_cons hpw (List.mem_map.mpr ⟨kv, hm, rfl⟩))
      obtain ⟨f2, _, hok2, _⟩ :=
        validDocFields_mem hvdf (List.mem_cons.mpr (Or.inr hm))
      have hnk : ¬ encode_ref (p ++ [k]) <+: x := by
        intro hk2
        exact sibling_subtree_disjoint hkne hokk.1 hok2.1 hk2 hx
      rw [hchildframe x hnk]
      exact hsub kv (by simp [hm]) x hx
    -- run the remaining fields
    obtain ⟨s2, hins2, hframe2, hget2⟩ :=
      ih s1 (by
          rw [validDocFields, Bool.and_eq_true] at hvdf
          exact hvdf.2)
        (by
          rw [canonKVs, Bool.and_eq_true] at hckv
          exact hckv.2)
        hpw.of_cons
        hsubrest
    refine ⟨s2, ?_, ?_, ?_⟩
    · rw [insertDocChildren, hf]
      simp only
      rw [hins1]
      exact hins2
    · intro x hx
      rw [hframe2 x (fun kv hm => hx kv (by simp [hm]))]
      exact hchildframe x (hx (k, v) (List.mem_cons_self (k, v) rest))
    · intro kv hm f2 hf2
      rcases List.mem_cons.mp hm with rfl | hm2
      · have hagree : ∀ x, encode_ref (p ++ [k]) <+: x → s2.get x = s1.get x := by
          intro x hx
          refine hframe2 x ?_
          intro kv2 hm2 hpre
          have hkne : k ≠ kv2.1 :=
            keyLt_ne (List.rel_of_pairwise_cons hpw
              (List.mem_map.mpr ⟨kv2, hm2, rfl⟩))
          obtain ⟨f3, _, hok3, _⟩ :=
            validDocFields_mem hvdf (List.mem_cons.mpr (Or.inr hm2))
          exact sibling_subtree_disjoint (Ne.symm hkne) hok3.1 hokk.1 hpre hx
        have hcongr := getTr_congr root (sizeOf f) f le_rfl (p ++ [k]) s2 s1 hagree
        have hfeq : f2 = f := by
          rw [hf] at hf2
          exact (Option.some.inj hf2).symm
        subst hfeq
        show (getTr root (p ++ [k]) f2 s2).1 = Except.ok v
        rw [hcongr]
        exact hget1
      · exact hget2 kv hm2 f2 hf2

/-- `tx_insert` on a schema-valid, canonical value over an empty subtree
succeeds, touches only the subtree and the parent's membership key, performs
a set-add on that key when the parent is a collection, and `get` then reads
the inserted value back. -/
theorem tx_insert_spec (root : SchemaItem) (hwf : schemaWF root = true)
    (hrnc : ∀ i, root ≠ .Collection i) :
    ∀ (n : Nat) (sch : SchemaItem), sizeOf sch ≤ n →
    ∀ (p : Path) (v : JValue) (s : Store),
    resolve root p = .ok sch → valid sch v = true → canon v = true →
    (∀ c ∈ p, okComp c) → subtreeEmpty s p → parentOk root s p →
    ∃ s2, tx_insert root p sch v s = .ok s2 ∧ insertFrame p s s2 ∧
      insertIdx root p s s2 ∧ (getTr root p sch s2).1 = .ok v := by
  intro n
  induction n with
  | zero =>
    intro sch hsz
    exact absurd hsz (by cases sch <;> simp)
  | succ n ihn =>
    intro sch hsz p v s hres hval hcan hokp hsub hpar
    cases sch with
    | Scalar =>
      cases v with
      | str b =>
        have hutf : validUtf8 b = true := by rw [valid] at hval; exact hval
        obtain ⟨s2, hipi, hframe, hle, hnc, hcol⟩ :=
          insertParentIndex_spec root p (s.insert (encode_ref p) b)
            (fun hlen => resolve_dropLast_of_resolve hres hlen)
            (by
              intro inner2 hlen hres2
              have hpn : p ≠ [] := by intro h; subst h; simp at hlen
              rw [Store.get_insert, if_neg (fun h => enc_dropLast_ne hpn h.symm)]
              exact hpar inner2 hlen hres2)
        have hgp : s2.get (encode_ref p) = some b := by
          by_cases hpn : p = []
          · rw [hle (by rw [hpn]; simp), Store.get_insert, if_pos rfl]
          · rw [hframe (encode_ref p) (fun h => enc_dropLast_ne hpn h.symm),
              Store.get_insert, if_pos rfl]
        refine ⟨s2, ?_, ?_, ?_, ?_⟩
        · rw [tx_insert]
          exact hipi
        · intro k hk hkd
          rw [hframe k hkd, Store.get_insert,
            if_neg (fun h : encode_ref p = k => hk (h ▸ List.prefix_rfl))]
        · refine ⟨?_, ?_, ?_⟩
          · intro hlen1
            have hpn : p ≠ [] := by intro h; subst h; simp at hlen1
            rw [hle (by omega), Store.get_insert,
              if_neg (fun h => enc_dropLast_ne hpn h.symm)]
          · intro m hlen hm2 hne
            have hpn : p ≠ [] := by intro h; subst h; simp at hlen
            rw [hnc m hlen hm2 hne, Store.get_insert,
              if_neg (fun h => enc_dropLast_ne hpn h.symm)]
          · intro inner2 hlen hres2
            have hpn : p ≠ [] := by intro h; subst h; simp at hlen
            have hins : (s.insert (encode_ref p) b).get (encode_ref p.dropLast)
                = s.get (encode_ref p.dropLast) := by
              rw [Store.get_insert, if_neg (fun h => enc_dropLast_ne hpn h.symm)]
            obtain ⟨h1, h2⟩ := hcol inner2 hlen hres2
            rw [hins] at h1 h2
            exact ⟨h1, h2⟩
        · rw [getTr, hgp]
          simp only
          rw [if_pos hutf]
      | null => simp [valid] at hval
      | bool x => simp [valid] at hval
      | num x => simp [valid] at hval
      | arr xs => simp [valid] at hval
      | obj kvs => simp [valid] at hval
    | Collection inner =>
      have hpn : p ≠ [] := by
        intro h
        subst h
        rw [resolve_nil] at hres
        exact hrnc inner (Except.ok.inj hres)
      cases v with
      | obj kvs =>
        have hvc : validChildren inner kvs = true := by
          rw [valid] at hval
          exact hval
        obtain ⟨hkvlen, hpw, hckv⟩ := canon_obj_elim hcan
        obtain ⟨s1, hinsC, hframeC, hemptyC, hnonemptyC, hgetC⟩ :=
          insertChildren_spec root p inner
            (fun q v2 s2 => ihn inner (by simp at hsz; omega) q v2 s2)
            hpn hokp hres kvs [] s hvc hckv hpw
            (fun a ha => absurd ha (List.not_mem_nil a))
            (fun c hc => absurd hc (List.not_mem_nil c))
            (by simpa using hkvlen)
            (fun kv hm x hx => hsub x ((enc_prefix_append p [kv.1]).trans hx))
            (Or.inl ⟨rfl, hsub (encode_ref p) List.prefix_rfl⟩)
        have hs1pd : s1.get (encode_ref p.dropLast) = s.get (encode_ref p.dropLast) :=
          hframeC (encode_ref p.dropLast)
            (fun kv hm => not_enc_snoc_prefix p kv.1 p.dropLast (List.dropLast_prefix p))
            (fun h => enc_dropLast_ne hpn h)
        obtain ⟨s2, hipi, hframeI, hle, hnc, hcol⟩ :=
          insertParentIndex_spec root p s1
            (fun hlen => resolve_dropLast_of_resolve hres hlen)
            (by
              intro inner2 hlen hres2
              rw [hs1pd]
              exact hpar inner2 hlen hres2)
        refine ⟨s2, ?_, ?_, ?_, ?_⟩
        · rw [tx_insert, hinsC]
          exact hipi
        · intro k hk hkd
          rw [hframeI k hkd]
          exact hframeC k
            (fun kv hm hpre => hk ((enc_prefix_append p [kv.1]).trans hpre))
            (fun h => hk (h ▸ List.prefix_rfl))
        · refine ⟨?_, ?_, ?_⟩
          · intro hlen1
            rw [hle (by omega)]
            exact hs1pd
          · intro m hlen hm2 hne
            rw [hnc m hlen hm2 hne]
            exact hs1pd
          · intro inner2 hlen hres2
            obtain ⟨h1, h2⟩ := hcol inner2 hlen hres2
            rw [hs1pd] at h1 h2
            exact ⟨h1, h2⟩
        · have hs2p : s2.get (encode_ref p) = s1.get (encode_ref p) :=
            hframeI (encode_ref p) (fun h => enc_dropLast_ne hpn h.symm)
          have hokkeys : ∀ c ∈ kvs.map Prod.fst, okComp c := by
            intro c hc
            obtain ⟨kv, hm, rfl⟩ := List.mem_map.mp hc
            exact (validChildren_mem hvc hm).1
          cases kvs with
          | nil =>
            have h0 : s2.get (encode_ref p) = none := by
              rw [hs2p, hemptyC rfl]
              exact hsub (encode_ref p) List.prefix_rfl
            rw [getTr, h0]
          | cons kv0 rest =>
            have h1 : s2.get (encode_ref p)
                = some (encodeKeySet ((kv0 :: rest).map Prod.fst)) := by
              rw [hs2p, hnonemptyC (by simp)]
              simp only [List.nil_append]
            have hdec : decodeKeySet (encodeKeySet ((kv0 :: rest).map Prod.fst))
                = some ((kv0 :: rest).map Prod.fst) :=
              decodeKeySet_encodeKeySet _ (by simpa using hkvlen) hokkeys
            have hreads : ∀ kv ∈ kv0 :: rest,
                (getTr root (p ++ [kv.1]) inner s2).1 = .ok kv.2 := by
              intro kv hm
              rw [getTr_congr root (sizeOf inner) inner le_rfl (p ++ [kv.1]) s2 s1
                (fun x hx => hframeI x (fun hxe =>
                  not_enc_snoc_prefix p kv.1 p.dropLast (List.dropLast_prefix p)
                    (hxe ▸ hx)))]
              exact hgetC kv hm
            have hkvsort : (kv0 :: rest).Pairwise pairKeyLt := by
              rw [List.pairwise_map] at hpw
              exact hpw
            obtain ⟨tr, htr⟩ := getColChildren_assemble root p inner s2 (kv0 :: rest)
              hkvsort hreads []
              (fun a ha => absurd ha (List.not_mem_nil a))
            rw [getTr, h1]
            simp only
            rw [hdec]
            simp only
            rw [htr]
            simp
      | null => simp [valid] at hval
      | bool x => simp [valid] at hval
      | num x => simp [valid] at hval
      | str b => simp [valid] at hval
      | arr xs => simp [valid] at hval
    | Document fields =>
      cases v with
      | obj kvs =>
        obtain ⟨hall1, hall2, hvdf⟩ := valid_document_elim hval
        obtain ⟨hkvlen, hpw, hckv⟩ := canon_obj_elim hcan
        have hwfD : schemaWF (.Document fields) = true :=
          schemaWF_resolveItem hwf hres
        have hnd : (fields.map Prod.fst).Nodup := by
          rw [schemaWF, Bool.and_eq_true] at hwfD
          exact of_decide_eq_true hwfD.1
        have hsub' : ∀ kv ∈ kvs,
            subtreeEmpty (s.insert (encode_ref p) [1]) (p ++ [kv.1]) := by
          intro kv hm x hx
          rw [Store.get_insert,
            if_neg (fun h : encode_ref p = x =>
              not_enc_snoc_prefix p kv.1 p List.prefix_rfl (h.symm ▸ hx))]
          exact hsub x ((enc_prefix_append p [kv.1]).trans hx)
        obtain ⟨s1, hinsDC, hframeDC, hgetDC⟩ :=
          insertDocChildren_spec root p fields
            (fun f hf => ihn f (by simp at hsz hf; omega))
            hokp hres kvs (s.insert (encode_ref p) [1]) hvdf hckv hpw hsub'
        have hs1pd : p ≠ [] →
            s1.get (encode_ref p.dropLast) = s.get (encode_ref p.dropLast) := by
          intro hpn
          rw [hframeDC (encode_ref p.dropLast)
            (fun kv hm => not_enc_snoc_prefix p kv.1 p.dropLast (List.dropLast_prefix p)),
            Store.get_insert, if_neg (fun h => enc_dropLast_ne hpn h.symm)]
        obtain ⟨s2, hipi, hframeI, hle, hnc, hcol⟩ :=
          insertParentIndex_spec root p s1
            (fun hlen => resolve_dropLast_of_resolve hres hlen)
            (by
              intro inner2 hlen hres2
              rw [hs1pd (by intro h; subst h; simp at hlen)]
              exact hpar inner2 hlen hres2)
        refine ⟨s2, ?_, ?_, ?_, ?_⟩
        · rw [tx_insert, if_pos hall1, if_pos hall2, hinsDC]
          exact hipi
        · intro k hk hkd
          rw [hframeI k hkd,
            hframeDC k (fun kv hm hpre => hk ((enc_prefix_append p [kv.1]).trans hpre)),
            Store.get_insert,
            if_neg (fun h : encode_ref p = k => hk (h ▸ List.prefix_rfl))]
        · refine ⟨?_, ?_, ?_⟩
          · intro hlen1
            rw [hle (by omega)]
            exact hs1pd (by intro h; subst h; simp at hlen1)
          · intro m hlen hm2 hne
            rw [hnc m hlen hm2 hne]
            exact hs1pd (by intro h; subst h; simp at hlen)
          · intro inner2 hlen hres2
            obtain ⟨h1, h2⟩ := hcol inner2 hlen hres2
            rw [hs1pd (by intro h; subst h; simp at hlen)] at h1 h2
            exact ⟨h1, h2⟩
        · have hgp : s2.get (encode_ref p) = some [1] := by
            have hstep : s1.get (encode_ref p) = some [1] := by
              rw [hframeDC (encode_ref p)
                (fun kv hm => not_enc_snoc_prefix p kv.1 p List.prefix_rfl),
                Store.get_insert, if_pos rfl]
            by_cases hpn : p = []
            · rw [hle (by rw [hpn]; simp)]
              exact hstep
            · rw [hframeI (encode_ref p)
                (fun h : encode_ref p = encode_ref p.dropLast =>
                  enc_dropLast_ne hpn h.symm)]
              exact hstep
          have htrans : ∀ (fk : Comp) (fsch : SchemaItem),
              getTr root (p ++ [fk]) fsch s2 = getTr root (p ++ [fk]) fsch s1 :=
            fun fk fsch =>
              getTr_congr root (sizeOf fsch) fsch le_rfl (p ++ [fk]) s2 s1
                (fun x hx => hframeI x (fun hxe =>
                  not_enc_snoc_prefix p fk p.dropLast (List.dropLast_prefix p)
                    (hxe ▸ hx)))
          have hfield_val : ∀ fk fsch, (fk, fsch) ∈ fields →
              ∃ w, (fk, w) ∈ kvs ∧ (getTr root (p ++ [fk]) fsch s2).1 = .ok w := by
            intro fk fsch hm
            have h2 := List.all_eq_true.mp hall2 (fk, fsch) hm
            simp only at h2
            obtain ⟨kv, hkvm, hkveq⟩ := List.any_eq_true.mp h2
            have hkeq : kv.1 = fk := of_decide_eq_true hkveq
            refine ⟨kv.2, ?_, ?_⟩
            · rw [← hkeq]
              exact hkvm
            · rw [htrans]
              have hg := hgetDC kv hkvm fsch
                (by rw [hkeq]; exact findField_eq_of_mem hnd hm)
              rw [hkeq] at hg
              exact hg
          have hkv_field : ∀ kv ∈ kvs, kv.1 ∈ fields.map Prod.fst := by
            intro kv hm
            have h1 := List.all_eq_true.mp hall1 kv hm
            simp only at h1
            exact findField_isSome_mem h1
          obtain ⟨M, tr, heqDC, hout, hin, hsort⟩ :=
            getDocChildren_assemble root p s2 fields hnd
              (fun fk fsch hm => (hfield_val fk fsch hm).elim (fun w hw => ⟨w, hw.2⟩))
              []
          have hMsort : M.Pairwise pairKeyLt :=
            hsort List.Pairwise.nil (fun a ha => absurd ha (List.not_mem_nil a))
          have hkvs_sort : kvs.Pairwise pairKeyLt := by
            rw [List.pairwise_map] at hpw
            exact hpw
          have hMeq : M = kvs := by
            refine sorted_map_ext hMsort hkvs_sort ?_
            intro x
            by_cases hx : x ∈ fields.map Prod.fst
            · obtain ⟨⟨fk, fsch⟩, hfm, rfl⟩ := List.mem_map.mp hx
              obtain ⟨w, hwm, hwget⟩ := hfield_val fk fsch hfm
              show mapFind M fk = mapFind kvs fk
              rw [hin fk fsch hfm w hwget, mapFind_eq_of_mem hkvs_sort hwm]
            · have hnone : mapFind kvs x = none :=
                mapFind_eq_none (fun y hy (hyx : y.1 = x) =>
                  hx (hyx ▸ hkv_field y hy))
              rw [hout x hx, hnone]
              rfl
          rw [getTr, hgp]
          simp only
          rw [heqDC]
          simp only
          rw [hMeq]
      | null => simp [valid] at hval
      | bool x => simp [valid] at hval
      | num x => simp [valid] at hval
      | str b => simp [valid] at hval
      | arr xs => simp [valid] at hval

/-! ### Concrete instances used by the claim theorems -/

/-- A root document with one collection-of-scalars field `f` (byte 102). -/
def R3 : SchemaItem := .Document [([102], .Collection .Scalar)]

/-- The record `{"o": "1"}` (keys and strings as UTF-8 bytes). -/
def V3 : JValue := .obj [([111], .str [49])]

/-- The tree after inserting `V3` at `["f"]` over the empty tree. -/
def S3 : Store := Server.insertState R3 [] [[102]] V3

/-- A root document with two declared scalar fields `a` (97) and `b` (98). -/
def R9 : SchemaItem := .Document [([97], .Scalar), ([98], .Scalar)]

/-- Root for the deep-insert example: a document whose field `a` is a
collection of documents with one document field `b` of one scalar field `c`. -/
def R5 : SchemaItem :=
  .Document [([97], .Collection (.Document [([98], .Document [([99], .Scalar)])]))]

/-! ### The claims -/

/-- C2 (code bug): the `Document` arm of `tx_update` removes the presence
key at `E(P)` and then tests that very key for presence, so updating a
document path with a record fails with `KeyNotFound` whether or not the
document exists; the field-wise partial update the spec describes is
unreachable. -/
theorem update_document_keyNotFound (root : SchemaItem) (s : Store) (p : Path)
    (fields : List (Comp × SchemaItem)) (kvs : List (Comp × JValue))
    (hres : resolve root p = .ok (.Document fields)) :
    Server.update root s p (.obj kvs) = .error .KeyNotFound := by
  rw [Server.update, hres]
  simp only
  rw [tx_update, if_pos (by rw [Store.get_erase, if_pos rfl]; rfl)]

theorem update_document_keyNotFound_witness :
    Server.update (.Document []) [] [] (.obj []) = .error .KeyNotFound :=
  update_document_keyNotFound (.Document []) [] [] [] [] rfl

/-- C4: a failed insert commits nothing: the transaction aborts, the tree
the caller sees afterwards is the pre-state, and every read equals its
pre-insert result. -/
theorem failed_insert_is_atomic (root : SchemaItem) (s : Store) (p : Path)
    (v : JValue) (e : ServerError)
    (h : Server.insert root s p v = .error e) :
    Server.insertState root s p v = s ∧
    ∀ q, Server.get root (Server.insertState root s p v) q = Server.get root s q := by
  have h1 : Server.insertState root s p v = s := by
    rw [Server.insertState, h]
  exact ⟨h1, fun q => by rw [h1]⟩

theorem failed_insert_is_atomic_witness :
    Server.insert R9 [] [] (.obj []) = .error .SchemaMismatch ∧
    Server.insertState R9 [] [] (.obj []) = [] ∧
    Server.get R9 (Server.insertState R9 [] [] (.obj [])) [[97]]
      = Server.get R9 [] [[97]] := by
  have h : Server.insert R9 [] [] (.obj []) = .error .SchemaMismatch := by
    simp +decide [R9, Server.insert, resolve, resolveItem, tx_insert]
  obtain ⟨h1, h2⟩ := failed_insert_is_atomic R9 [] [] (.obj []) .SchemaMismatch h
  exact ⟨h, h1, h2 [[97]]⟩

/-- C6: decoding the encoding of a path yields the path back, for every
path of components that are Rust strings (valid UTF-8 bytes, length below
`2^64`). -/
theorem decode_of_encode_id (p : Path) (h : ∀ c ∈ p, okComp c) :
    decode_ref (encode_ref p) = some p :=
  decode_encode p h

theorem decode_of_encode_id_witness :
    okComp [104, 105] ∧ okComp [] ∧
    decode_ref (encode_ref [[104, 105], []]) = some [[104, 105], []] :=
  ⟨by decide, by decide, decode_of_encode_id [[104, 105], []] (by decide)⟩

/-- C7: `A` is an ancestor of `B` (`B` extends `A` by a suffix, `A <+: B`)
exactly when `encode_ref A` is a byte-prefix of `encode_ref B`, for
components of Rust-string length. -/
theorem encode_preserves_ancestry (A B : Path)
    (hA : ∀ c ∈ A, c.length < 2 ^ 64) (hB : ∀ c ∈ B, c.length < 2 ^ 64) :
    encode_ref A <+: encode_ref B ↔ A <+: B :=
  encode_prefix_iff A B hA hB

theorem encode_preserves_ancestry_witness :
    ([97] : Comp).length < 2 ^ 64 ∧
    (encode_ref [[97]] <+: encode_ref [[97], [98]] ↔ [[97]] <+: [[97], [98]]) :=
  ⟨by decide, encode_preserves_ancestry [[97]] [[97], [98]] (by decide) (by decide)⟩

/-- A malformed key — here a truncated length field — makes `decode_ref`
panic (modelled as `none`) rather than return a `CorruptKey` error; no such
error variant exists in the source. -/
theorem decode_malformed_counterexample : decode_ref [0] = none := by
  simp +decide [decode_ref]

/-- C8 (amended): `decode_ref` never fabricates a path — whenever it
returns one, the input was exactly that path's encoding (so it is total and
correct on every output of `encode_ref`); on malformed input the source
indexes out of bounds or slices badly and panics, modelled `none`, as no
`CorruptKey` error exists. -/
theorem decode_no_garbage (b : List Nat) (hb : ∀ x ∈ b, x < 256) (p : Path)
    (h : decode_ref b = some p) : encode_ref p = b :=
  decode_sound b hb p h

theorem decode_no_garbage_witness :
    encode_ref [[104]] = [1, 0, 0, 0, 0, 0, 0, 0, 104] :=
  decode_no_garbage _ (by decide) _
    (by simp +decide [decode_ref, fromLeBytes,
      show validUtf8 [104] = true from by decide])

/-- A record that both omits every declared field of `R9` and carries an
undeclared key is rejected with `ExtraKeyFound`, not the `SchemaMismatch`
that the omitted declared fields call for: the extra-key check runs first. -/
theorem insert_overlap_counterexample :
    Server.insert R9 [] [] (.obj [([99], .str [120])]) = .error .ExtraKeyFound ∧
    (∀ kv ∈ [([99], JValue.str [120])], kv.1 ≠ [97]) ∧
    ServerError.ExtraKeyFound ≠ ServerError.SchemaMismatch := by
  refine ⟨?_, by decide, by decide⟩
  simp +decide [R9, Server.insert, resolve, resolveItem, tx_insert, findField]

/-- C9 (amended): a Scalar target rejects with `NonDocumentInsert`; at a
Document target a record with an undeclared key rejects with
`ExtraKeyFound` (this check runs before the missing-field check), a record
passing that check but missing a declared field rejects with
`SchemaMismatch`, and a non-record value rejects with `SchemaMismatch`. -/
theorem insert_rejection_errors (root sch : SchemaItem) (s : Store) (p : Path)
    (v : JValue) (hres : resolve root p = .ok sch) :
    (sch = .Scalar → Server.insert root s p v = .error .NonDocumentInsert) ∧
    (∀ fields kvs, sch = .Document fields → v = .obj kvs →
      (kvs.all (fun kv => (findField fields kv.1).isSome) = false →
        Server.insert root s p v = .error .ExtraKeyFound) ∧
      (kvs.all (fun kv => (findField fields kv.1).isSome) = true →
        fields.all (fun f => kvs.any (fun kv => kv.1 = f.1)) = false →
        Server.insert root s p v = .error .SchemaMismatch)) ∧
    (∀ fields, sch = .Document fields → (∀ kvs, v ≠ .obj kvs) →
      Server.insert root s p v = .error .SchemaMismatch) := by
  refine ⟨?_, ?_, ?_⟩
  · intro hsch
    subst hsch
    rw [Server.insert, hres]
  · intro fields kvs hsch hv
    subst hsch
    subst hv
    constructor
    · intro hall1
      rw [Server.insert, hres]
      simp only
      rw [tx_insert, if_neg (by rw [hall1]; exact Bool.false_ne_true)]
    · intro hall1 hall2
      rw [Server.insert, hres]
      simp only
      rw [tx_insert, if_pos hall1,
        if_neg (by rw [hall2]; exact Bool.false_ne_true)]
  · intro fields hsch hnv
    subst hsch
    rw [Server.insert, hres]
    simp only
    cases v with
    | obj kvs => exact absurd rfl (hnv kvs)
    | null =>
      rw [tx_insert]
      simp
    | bool b =>
      rw [tx_insert]
      simp
    | num n =>
      rw [tx_insert]
      simp
    | str b =>
      rw [tx_insert]
      simp
    | arr xs =>
      rw [tx_insert]
      simp

theorem insert_rejection_errors_witness :
    Server.insert SchemaItem.Scalar [] [] JValue.null
      = .error .NonDocumentInsert :=
  (insert_rejection_errors .Scalar .Scalar [] [] .null rfl).1 rfl

/-- C1 (amended): over an empty subtree — no physical key at or below
`E(P)` — and a well-formed parent index, inserting a schema-valid canonical
value at a Document or Collection path succeeds and `get(P)` returns
exactly that value.  Over a nonempty subtree the roundtrip can fail: a
collection insert merges with the existing members (see the
counterexample). -/
theorem insert_then_get_roundtrip (root sch : SchemaItem) (s : Store)
    (p : Path) (v : JValue)
    (hwf : schemaWF root = true) (hrnc : ∀ i, root ≠ .Collection i)
    (hres : resolve root p = .ok sch) (hns : sch ≠ .Scalar)
    (hval : valid sch v = true) (hcan : canon v = true)
    (hokp : ∀ c ∈ p, okComp c)
    (hsub : subtreeEmpty s p) (hpar : parentOk root s p) :
    ∃ s2, Server.insert root s p v = .ok s2 ∧ Server.get root s2 p = .ok v := by
  obtain ⟨s2, hok, _, _, hget⟩ :=
    tx_insert_spec root hwf hrnc (sizeOf sch) sch le_rfl p v s hres hval hcan
      hokp hsub hpar
  refine ⟨s2, ?_, ?_⟩
  · rw [Server.insert, hres]
    cases sch with
    | Scalar => exact absurd rfl hns
    | Collection inner => exact hok
    | Document fields => exact hok
  · rw [Server.get, Server.getT, hres]
    simp only
    exact hget

theorem insert_then_get_roundtrip_witness :
    ∃ s2, Server.insert R3 [] [[102]] V3 = .ok s2 ∧
      Server.get R3 s2 [[102]] = .ok V3 :=
  insert_then_get_roundtrip R3 (.Collection .Scalar) [] [[102]] V3
    (by decide) (by intro i h; simp [R3] at h) rfl (by simp)
    (by simp +decide [V3, valid, validChildren]) (by decide) (by decide)
    (fun k _ => rfl) (fun inner h _ => absurd h (by decide))

/-- Inserting the schema-valid empty record into the nonempty collection
`["f"]` of `S3` succeeds, yet `get` still returns the pre-existing member
`V3`: an insert into a collection merges with the present members instead
of replacing them, so insert-then-get does not return the inserted value. -/
theorem insert_then_get_counterexample :
    valid (.Collection .Scalar) (.obj []) = true ∧
    resolve R3 [[102]] = .ok (.Collection .Scalar) ∧
    Server.insert R3 S3 [[102]] (.obj []) = .ok S3 ∧
    Server.get R3 S3 [[102]] = .ok V3 ∧
    JValue.obj [] ≠ V3 := by
  refine ⟨by simp [valid, validChildren], rfl, ?_, ?_, by simp [V3]⟩
  · simp +decide [R3, Server.insert, resolve, resolveItem, findField,
      tx_insert, insertChildren, insertParentIndex]
  · simp +decide [S3, R3, V3, Server.insertState, Server.insert, Server.get,
      Server.getT, resolve, resolveItem, findField, tx_insert, insertChildren,
      insertDocChildren, insertParentIndex, getTr, getColChildren,
      getDocChildren, Store.get, Store.insert, encode_ref, encComp, toLeBytes,
      encodeKeySet, ksBody, decodeKeySet, decodeElems, fromLeBytes, insSorted,
      setAdd, mapInsert, keyLt]

/-- C3 (code bug): the permission check in `client_task` lacks a
`continue`: under a deny-all predicate an `Insert` request still executes —
the store changes and the success response is emitted right after the
`Error("permissions")` response, instead of the operation being skipped. -/
theorem denied_request_still_executes :
    handleMessage (.Document []) (fun _ => false) [] (.Insert [] (.obj []))
      = some ([([], [1])], [.Error .permissions, .Value .null], false) ∧
    ([([], [1])] : Store) ≠ ([] : Store) := by
  refine ⟨?_, by simp⟩
  simp +decide [handleMessage, Server.insert, resolve, resolveItem, tx_insert,
    insertDocChildren, insertParentIndex, Store.insert, encode_ref]

/-- C5 (code bug): index maintenance touches only the inserted path's
immediate parent.  A successful insert at the deep path `a.x.b` of `R5`
stores physical keys below the collection `a`'s first-level child `x`, yet
the membership set at `E([a])` remains absent — the collection `a` is
nonempty but indexed as empty, violating the claimed invariant. -/
theorem deep_insert_skips_ancestor_index :
    Server.insert R5 [] [[97], [120], [98]] (.obj [([99], .str [118])])
      = .ok [(encode_ref [[97], [120], [98], [99]], [118]),
             (encode_ref [[97], [120], [98]], [1])] ∧
    resolve R5 [[97]]
      = .ok (.Collection (.Document [([98], .Document [([99], .Scalar)])])) ∧
    Store.get [(encode_ref [[97], [120], [98], [99]], [118]),
               (encode_ref [[97], [120], [98]], [1])] (encode_ref [[97]]) = none ∧
    encode_ref [[97], [120]] <+: encode_ref [[97], [120], [98]] := by
  refine ⟨?_, rfl, ?_, by decide⟩
  · simp +decide [R5, Server.insert, resolve, resolveItem, findField,
      tx_insert, insertChildren, insertDocChildren, insertParentIndex,
      Store.get, Store.insert, encode_ref, encComp, toLeBytes]
  · simp +decide [Store.get, encode_ref, encComp, toLeBytes]

/-- C10: `Server::get` performs only reads: every store operation in its
trace is a read, and replaying the trace over any store leaves it
unchanged. -/
theorem get_is_readonly (root : SchemaItem) (s : Store) (p : Path) :
    ((Server.getT root s p).2).all StoreOp.isRead = true ∧
    runOps s ((Server.getT root s p).2) = s := by
  have h : ((Server.getT root s p).2).all StoreOp.isRead = true := by
    rw [Server.getT]
    cases hres : resolve root p with
    | error e => rfl
    | ok sch => exact getTr_reads root (sizeOf sch) sch le_rfl p s
  exact ⟨h, runOps_of_reads h s⟩

end Iceload
